import Mathlib

/-!
Verification development for the tskit simplify prototype repository:
the simplify engine (simplify_work/simplify_algorithms.py) and the
tree-sequence fixture utilities (tests/tsutil.py), shallowly embedded
in Lean 4.  Genomic coordinates are modelled as rationals, node ids and
arena indices as naturals, counts in the breakpoint map as integers.
-/

set_option maxRecDepth 10000
set_option maxHeartbeats 1000000

namespace TsUtil

/-- Node table row: flags (bit 0 is the sample flag), name, population, time. -/
structure NodeRow where
  flags : Nat
  name : String
  population : Int
  time : ℚ
  deriving DecidableEq, Repr

/-- Edge table row over the genomic interval [left, right). -/
structure EdgeRow where
  left : ℚ
  right : ℚ
  parent : Nat
  child : Nat
  deriving DecidableEq, Repr

/-- Site table row: a genomic position with an ancestral state. -/
structure SiteRow where
  position : ℚ
  ancestral_state : String
  deriving DecidableEq, Repr

/-- Mutation table row: site id, node id, derived state and the optional
parent mutation reference (-1 is the null reference). -/
structure MutRow where
  site : Nat
  node : Nat
  derived_state : String
  parent : Int
  deriving DecidableEq, Repr

/-- The four tables of a tree sequence. -/
structure Tables where
  nodes : List NodeRow
  edges : List EdgeRow
  sites : List SiteRow
  mutations : List MutRow
  deriving DecidableEq, Repr

/-- Translation of tsutil.insert_redundant_breakpoints: rebuild the edge
table, replacing every edge by its two halves split at the interval
midpoint x = left + (right - left) / 2; all other tables are carried
over unchanged by dump_tables / load_tables. -/
def insert_redundant_breakpoints (ts : Tables) : Tables :=
  { ts with edges := ts.edges.flatMap (fun r =>
      let x := r.left + (r.right - r.left) / 2
      [ { left := r.left, right := x, parent := r.parent, child := r.child },
        { left := x, right := r.right, parent := r.parent, child := r.child } ]) }

/-- Normalisation of a Python slice bound: negative indices count from the
end (clamped at 0), nonnegative ones are clamped at the length. -/
def pyIdx (i : Int) (n : Nat) : Nat :=
  if i < 0 then (n + i).toNat else min i.toNat n

/-- Overwrite the elements with (0-based) positions in [lo, hi) by v. -/
def setRange (l : List Nat) (lo hi v : Nat) : List Nat :=
  match l with
  | [] => []
  | x :: xs => (if lo = 0 ∧ 0 < hi then v else x) :: setRange xs (lo - 1) (hi - 1) v

/-- Python list slice-assignment l[a:b] = v on a list of naturals, with
the Python normalisation of negative and overlarge bounds. -/
def pySliceSet (l : List Nat) (a b : Int) (v : Nat) : List Nat :=
  setRange l (pyIdx a l.length) (pyIdx b l.length) v

/-- Number of nodes carrying the sample flag (bit 0 of flags). -/
def sampleCount (nodes : List NodeRow) : Nat :=
  (nodes.filter (fun nd => nd.flags % 2 = 1)).length

/-- The flags column computed by jiggle_samples: clear the flags of the
first n // 2 positions, then set the flags of positions
[oldest_parent - n // 2, oldest_parent), n being the sample count. -/
def jiggle_flags (ts : Tables) (oldest_parent : Nat) : List Nat :=
  pySliceSet
    (pySliceSet (ts.nodes.map (fun nd => nd.flags)) 0 ((sampleCount ts.nodes / 2 : Nat) : Int) 0)
    ((oldest_parent : Int) - ((sampleCount ts.nodes / 2 : Nat) : Int)) (oldest_parent : Int) 1

/-- Translation of tsutil.jiggle_samples: read the parent of the last edge
(edges.parent[-1], failing on an empty edge table), rewrite the flags
column through jiggle_flags, and reassemble the node table from only the
flags and time columns (set_columns resets name and population to their
defaults) before reloading from only the node and edge tables (dropping
sites and mutations). -/
def jiggle_samples (ts : Tables) : Option Tables :=
  match (ts.edges.map (fun e => e.parent)).getLast? with
  | none => none
  | some oldest_parent =>
    some { nodes := ((jiggle_flags ts oldest_parent).zip (ts.nodes.map (fun nd => nd.time))).map
             (fun p => { flags := p.1, name := "", population := -1, time := p.2 }),
           edges := ts.edges, sites := [], mutations := [] }

theorem setRange_tabulate (L : Nat) (G : Nat → Nat) (lo hi v : Nat) :
    setRange ((List.range L).map G) lo hi v =
      (List.range L).map (fun i => if lo ≤ i ∧ i < hi then v else G i) := by
  induction L generalizing G lo hi with
  | zero => simp [setRange]
  | succ n ih =>
    rw [List.range_succ_eq_map, List.map_cons, List.map_map, setRange, ih,
      List.map_cons, List.map_map]
    congr 1
    · congr 1
      simp only [eq_iff_iff]
      omega
    · apply List.map_congr_left
      intro i _
      simp only [Function.comp]
      congr 1
      simp only [eq_iff_iff]
      omega

theorem length_setRange (l : List Nat) (lo hi v : Nat) :
    (setRange l lo hi v).length = l.length := by
  induction l generalizing lo hi with
  | nil => rfl
  | cons x xs ih => simp [setRange, ih]

theorem countP_range_interval2 (a1 b1 a2 b2 L : Nat) (hd : b1 ≤ a2) :
    (List.range L).countP (fun i => decide ((a1 ≤ i ∧ i < b1) ∨ (a2 ≤ i ∧ i < b2))) =
      (min b1 L - min a1 L) + (min b2 L - min a2 L) := by
  induction L with
  | zero => simp
  | succ n ih =>
    rw [List.range_succ, List.countP_append, ih, List.countP_singleton]
    by_cases h : (a1 ≤ n ∧ n < b1) ∨ (a2 ≤ n ∧ n < b2)
    · rw [decide_eq_true h, if_pos rfl]
      omega
    · rw [decide_eq_false h, if_neg Bool.false_ne_true]
      omega

theorem map_zip_nodeRow_flags (l1 : List Nat) (l2 : List ℚ) (h : l1.length = l2.length) :
    ((l1.zip l2).map (fun p =>
      ({ flags := p.1, name := "", population := -1, time := p.2 } : NodeRow))).map
        (fun nd => nd.flags) = l1 := by
  induction l1 generalizing l2 with
  | nil => simp
  | cons x xs ih =>
    cases l2 with
    | nil => simp at h
    | cons y ys =>
      simp only [List.zip_cons_cons, List.map_cons]
      rw [ih ys (by simpa using h)]

theorem map_zip_nodeRow_time (l1 : List Nat) (l2 : List ℚ) (h : l1.length = l2.length) :
    ((l1.zip l2).map (fun p =>
      ({ flags := p.1, name := "", population := -1, time := p.2 } : NodeRow))).map
        (fun nd => nd.time) = l2 := by
  induction l1 generalizing l2 with
  | nil => cases l2 with
    | nil => simp
    | cons y ys => simp at h
  | cons x xs ih =>
    cases l2 with
    | nil => simp at h
    | cons y ys =>
      simp only [List.zip_cons_cons, List.map_cons]
      rw [ih ys (by simpa using h)]

theorem sampleCount_eq_countP_map (nds : List NodeRow) :
    sampleCount nds = (nds.map (fun nd => nd.flags)).countP (fun x => decide (x % 2 = 1)) := by
  rw [sampleCount, List.countP_map, ← List.countP_eq_length_filter]
  rfl

theorem flatMap_pair_length {α β : Type} (l : List α) (F : α → List β)
    (hF : ∀ x, (F x).length = 2) : (l.flatMap F).length = 2 * l.length := by
  induction l with
  | nil => rfl
  | cons b tl ih =>
    rw [List.flatMap_cons, List.length_append, ih, hF, List.length_cons]
    omega

theorem flatMap_pair_getElem {α β : Type} (l : List α) (F : α → List β) (f g : α → β)
    (hF : ∀ x, F x = [f x, g x]) :
    ∀ i a, l[i]? = some a →
      (l.flatMap F)[2 * i]? = some (f a) ∧ (l.flatMap F)[2 * i + 1]? = some (g a) := by
  induction l with
  | nil => intro i a h; simp at h
  | cons b tl ih =>
    intro i a h
    rw [List.flatMap_cons, hF]
    cases i with
    | zero =>
      have hb : b = a := by simpa using h
      subst hb
      constructor <;> simp
    | succ j =>
      have h2 : tl[j]? = some a := by simpa using h
      have hlen : ([f b, g b] : List β).length = 2 := rfl
      constructor
      · rw [List.getElem?_append_right (by rw [hlen]; omega)]
        rw [hlen, show 2 * (j + 1) - 2 = 2 * j from by omega]
        exact (ih j a h2).1
      · rw [List.getElem?_append_right (by rw [hlen]; omega)]
        rw [hlen, show 2 * (j + 1) + 1 - 2 = 2 * j + 1 from by omega]
        exact (ih j a h2).2

/-- C7: insert_redundant_breakpoints returns a tree sequence with exactly
2 times the original edge count, in which every original edge [left, right)
with parent p and child c is replaced by the two edges [left, mid) and
[mid, right) at mid = left + (right - left) / 2, both with the same parent
p and child c. -/
theorem C7_insert_redundant_breakpoints_halves (ts : Tables) :
    (insert_redundant_breakpoints ts).edges.length = 2 * ts.edges.length ∧
    ∀ i e, ts.edges[i]? = some e →
      (insert_redundant_breakpoints ts).edges[2 * i]? =
        some { left := e.left, right := e.left + (e.right - e.left) / 2,
               parent := e.parent, child := e.child } ∧
      (insert_redundant_breakpoints ts).edges[2 * i + 1]? =
        some { left := e.left + (e.right - e.left) / 2, right := e.right,
               parent := e.parent, child := e.child } := by
  constructor
  · exact flatMap_pair_length ts.edges
      (fun r =>
        let x := r.left + (r.right - r.left) / 2
        ([ { left := r.left, right := x, parent := r.parent, child := r.child },
           { left := x, right := r.right, parent := r.parent, child := r.child } ] : List EdgeRow))
      (fun x => rfl)
  · exact flatMap_pair_getElem ts.edges
      (fun r =>
        let x := r.left + (r.right - r.left) / 2
        ([ { left := r.left, right := x, parent := r.parent, child := r.child },
           { left := x, right := r.right, parent := r.parent, child := r.child } ] : List EdgeRow))
      (fun e => { left := e.left, right := e.left + (e.right - e.left) / 2,
                  parent := e.parent, child := e.child })
      (fun e => { left := e.left + (e.right - e.left) / 2, right := e.right,
                  parent := e.parent, child := e.child })
      (fun x => rfl)

/-- Concrete one-edge tree sequence used as the C7 witness input. -/
def tsC7 : Tables :=
  { nodes := [], edges := [{ left := 0, right := 1, parent := 1, child := 0 }],
    sites := [], mutations := [] }

/-- Witness for C7 at a concrete one-edge input. -/
theorem C7_witness :
    (insert_redundant_breakpoints tsC7).edges.length = 2 * tsC7.edges.length ∧
    (insert_redundant_breakpoints tsC7).edges[0]? =
      some { left := 0, right := 1 / 2, parent := 1, child := 0 } ∧
    (insert_redundant_breakpoints tsC7).edges[1]? =
      some { left := 1 / 2, right := 1, parent := 1, child := 0 } := by
  have h := C7_insert_redundant_breakpoints_halves tsC7
  have h0 := h.2 0 { left := 0, right := 1, parent := 1, child := 0 } rfl
  refine ⟨h.1, ?_, ?_⟩
  · have h1 := h0.1
    rw [show 2 * 0 = 0 from rfl] at h1
    rw [h1]
    simp only [Option.some.injEq, EdgeRow.mk.injEq]
    norm_num
  · have h1 := h0.2
    rw [show 2 * 0 + 1 = 1 from rfl] at h1
    rw [h1]
    simp only [Option.some.injEq, EdgeRow.mk.injEq]
    norm_num

theorem length_jiggle_flags (ts : Tables) (op : Nat) :
    (jiggle_flags ts op).length = ts.nodes.length := by
  unfold jiggle_flags pySliceSet
  rw [length_setRange, length_setRange, List.length_map]

/-- Concrete tree sequence on which jiggle_samples changes the number of
sample nodes: the samples are nodes 1 and 3 rather than an initial
segment of the node ids. -/
def tsC8 : Tables :=
  { nodes := [ { flags := 0, name := "", population := -1, time := 0 },
               { flags := 1, name := "", population := -1, time := 0 },
               { flags := 0, name := "", population := -1, time := 0 },
               { flags := 1, name := "", population := -1, time := 1 } ],
    edges := [ { left := 0, right := 1, parent := 3, child := 1 } ],
    sites := [], mutations := [] }

/-- Counterexample to C8 as stated: on tsC8 (samples at ids 1 and 3, not
an initial segment) jiggle_samples raises the number of flagged nodes from
2 to 3, and the first original sample (node 1) keeps its flag, so neither
the preservation clause nor the first-half-loses clause of the claim
holds. -/
theorem C8_jiggle_samples_counterexample :
    sampleCount tsC8.nodes = 2 ∧
    (jiggle_samples tsC8).map (fun t => sampleCount t.nodes) = some 3 ∧
    ¬ ((jiggle_samples tsC8).map (fun t => sampleCount t.nodes) =
        some (sampleCount tsC8.nodes)) ∧
    (jiggle_samples tsC8).map (fun t => (t.nodes.map (fun nd => nd.flags))[1]?) =
      some (some 1) := by
  refine ⟨by decide, by decide, by decide, by decide⟩

/-- C8 (amended): jiggle_samples clears the sample flag on node ids
[0, n // 2) and sets it on node ids [oldest_parent - n // 2, oldest_parent)
where n is the sample count and oldest_parent the parent of the last edge;
when the samples are exactly the node ids 0..n-1 (n at least 2) and the
gained range lies beyond them inside the node table, the total number of
flagged nodes is preserved while the set of flagged ids changes (id 0
loses the flag, id oldest_parent - 1 gains it), and neither the edge table
nor any node time changes. -/
theorem C8_jiggle_samples_amended (ts : Tables) (nn op : Nat)
    (hflags : ts.nodes.map (fun nd => nd.flags) =
      (List.range ts.nodes.length).map (fun i => if i < nn then 1 else 0))
    (hlast : (ts.edges.map (fun e => e.parent)).getLast? = some op)
    (hop : op ≤ ts.nodes.length)
    (hgap : nn + nn / 2 ≤ op)
    (h2 : 2 ≤ nn) :
    (jiggle_samples ts).map (fun t => t.nodes.map (fun nd => nd.flags)) =
      some ((List.range ts.nodes.length).map (fun i =>
        if op - nn / 2 ≤ i ∧ i < op then 1
        else if i < nn / 2 then 0
        else if i < nn then 1 else 0)) ∧
    (jiggle_samples ts).map (fun t => sampleCount t.nodes) =
      some (sampleCount ts.nodes) ∧
    ¬ ((jiggle_samples ts).map (fun t => t.nodes.map (fun nd => nd.flags)) =
        some (ts.nodes.map (fun nd => nd.flags))) ∧
    (jiggle_samples ts).map (fun t => (t.nodes.map (fun nd => nd.flags))[0]?) =
      some (some 0) ∧
    (ts.nodes.map (fun nd => nd.flags))[0]? = some 1 ∧
    (jiggle_samples ts).map (fun t => (t.nodes.map (fun nd => nd.flags))[op - 1]?) =
      some (some 1) ∧
    (ts.nodes.map (fun nd => nd.flags))[op - 1]? = some 0 ∧
    (jiggle_samples ts).map (fun t => t.edges) = some ts.edges ∧
    (jiggle_samples ts).map (fun t => t.nodes.map (fun nd => nd.time)) =
      some (ts.nodes.map (fun nd => nd.time)) := by
  have hnL : nn ≤ ts.nodes.length := by omega
  have hcount : sampleCount ts.nodes = nn := by
    rw [sampleCount_eq_countP_map, hflags, List.countP_map]
    have hc : (List.range ts.nodes.length).countP
          ((fun x => decide (x % 2 = 1)) ∘ (fun i => if i < nn then 1 else 0)) =
        (List.range ts.nodes.length).countP
          (fun i => decide ((0 ≤ i ∧ i < nn) ∨ (nn ≤ i ∧ i < nn))) := by
      apply List.countP_congr
      intro i _
      simp only [Function.comp, decide_eq_true_eq]
      by_cases hi : i < nn
      · rw [if_pos hi]
        omega
      · rw [if_neg hi]
        omega
    rw [hc, countP_range_interval2 0 nn nn nn ts.nodes.length le_rfl]
    omega
  have hjig : jiggle_samples ts =
      some { nodes := ((jiggle_flags ts op).zip (ts.nodes.map (fun nd => nd.time))).map
               (fun p => { flags := p.1, name := "", population := -1, time := p.2 }),
             edges := ts.edges, sites := [], mutations := [] } := by
    unfold jiggle_samples
    rw [hlast]
  have hlenflags : (jiggle_flags ts op).length = (ts.nodes.map (fun nd => nd.time)).length := by
    rw [length_jiggle_flags, List.length_map]
  -- compute the flags column produced by jiggle_flags
  have hflags2 : jiggle_flags ts op = (List.range ts.nodes.length).map (fun i =>
      if op - nn / 2 ≤ i ∧ i < op then 1
      else if i < nn / 2 then 0
      else if i < nn then 1 else 0) := by
    unfold jiggle_flags pySliceSet
    rw [hcount, hflags]
    have hlen1 : ((List.range ts.nodes.length).map (fun i =>
        if i < nn then 1 else 0) : List Nat).length = ts.nodes.length := by
      rw [List.length_map, List.length_range]
    rw [hlen1]
    have hi0 : pyIdx 0 ts.nodes.length = 0 := by
      unfold pyIdx
      simp
    have hi1 : pyIdx ((nn / 2 : Nat) : Int) ts.nodes.length = nn / 2 := by
      unfold pyIdx
      rw [if_neg (by omega), Int.toNat_natCast]
      omega
    rw [hi0, hi1, setRange_tabulate]
    have hlen2 : ((List.range ts.nodes.length).map (fun i =>
        if 0 ≤ i ∧ i < nn / 2 then 0 else if i < nn then 1 else 0) : List Nat).length =
          ts.nodes.length := by
      rw [List.length_map, List.length_range]
    rw [hlen2]
    have hi2 : pyIdx ((op : Int) - ((nn / 2 : Nat) : Int)) ts.nodes.length = op - nn / 2 := by
      unfold pyIdx
      rw [if_neg (by omega)]
      omega
    have hi3 : pyIdx ((op : Int)) ts.nodes.length = op := by
      unfold pyIdx
      rw [if_neg (by omega), Int.toNat_natCast]
      omega
    rw [hi2, hi3, setRange_tabulate]
    apply List.map_congr_left
    intro i _
    by_cases hA : op - nn / 2 ≤ i ∧ i < op
    · rw [if_pos hA, if_pos hA]
    · rw [if_neg hA, if_neg hA]
      by_cases hB : i < nn / 2
      · rw [if_pos (And.intro (Nat.zero_le i) hB), if_pos hB]
      · rw [if_neg (fun hand => hB hand.2), if_neg hB]
  have hmapflags :
      (((jiggle_flags ts op).zip (ts.nodes.map (fun nd => nd.time))).map
        (fun p => ({ flags := p.1, name := "", population := -1, time := p.2 } : NodeRow))).map
          (fun nd => nd.flags) = jiggle_flags ts op :=
    map_zip_nodeRow_flags _ _ hlenflags
  have hmaptime :
      (((jiggle_flags ts op).zip (ts.nodes.map (fun nd => nd.time))).map
        (fun p => ({ flags := p.1, name := "", population := -1, time := p.2 } : NodeRow))).map
          (fun nd => nd.time) = ts.nodes.map (fun nd => nd.time) :=
    map_zip_nodeRow_time _ _ hlenflags
  have hLpos : 0 < ts.nodes.length := by omega
  have hop1 : op - 1 < ts.nodes.length := by omega
  -- elementwise values of the new and old flags columns
  have hval0 : (jiggle_flags ts op)[0]? = some 0 := by
    rw [hflags2, List.getElem?_map, List.getElem?_range hLpos]
    simp only [Option.map_some']
    rw [if_neg (by omega), if_pos (by omega)]
  have hvalop : (jiggle_flags ts op)[op - 1]? = some 1 := by
    rw [hflags2, List.getElem?_map, List.getElem?_range hop1]
    simp only [Option.map_some']
    rw [if_pos (by omega)]
  have hold0 : (ts.nodes.map (fun nd => nd.flags))[0]? = some 1 := by
    rw [hflags, List.getElem?_map, List.getElem?_range hLpos]
    simp only [Option.map_some']
    rw [if_pos (by omega)]
  have holdop : (ts.nodes.map (fun nd => nd.flags))[op - 1]? = some 0 := by
    rw [hflags, List.getElem?_map, List.getElem?_range hop1]
    simp only [Option.map_some']
    rw [if_neg (by omega)]
  -- the number of flagged nodes is preserved
  have hcount2 : ((jiggle_flags ts op).countP (fun x => decide (x % 2 = 1))) = nn := by
    rw [hflags2, List.countP_map]
    have hc : (List.range ts.nodes.length).countP
          ((fun x => decide (x % 2 = 1)) ∘ (fun i =>
            if op - nn / 2 ≤ i ∧ i < op then 1
            else if i < nn / 2 then 0
            else if i < nn then 1 else 0)) =
        (List.range ts.nodes.length).countP
          (fun i => decide ((nn / 2 ≤ i ∧ i < nn) ∨ (op - nn / 2 ≤ i ∧ i < op))) := by
      apply List.countP_congr
      intro i _
      simp only [Function.comp, decide_eq_true_eq]
      by_cases hA : op - nn / 2 ≤ i ∧ i < op
      · rw [if_pos hA]
        omega
      · rw [if_neg hA]
        by_cases hB : i < nn / 2
        · rw [if_pos hB]
          omega
        · rw [if_neg hB]
          by_cases hC : i < nn
          · rw [if_pos hC]
            omega
          · rw [if_neg hC]
            omega
    rw [hc, countP_range_interval2 (nn / 2) nn (op - nn / 2) op ts.nodes.length (by omega)]
    omega
  rw [hjig]
  refine ⟨?_, ?_, ?_, ?_, hold0, ?_, holdop, ?_, ?_⟩
  · simp only [Option.map_some']
    rw [hmapflags, hflags2]
  · simp only [Option.map_some']
    rw [Option.some.injEq, sampleCount_eq_countP_map, hmapflags, hcount2, hcount]
  · intro hcontra
    simp only [Option.map_some'] at hcontra
    rw [Option.some.injEq, hmapflags] at hcontra
    have h0 : (jiggle_flags ts op)[0]? = some 1 := by rw [hcontra]; exact hold0
    rw [hval0] at h0
    exact absurd (Option.some.inj h0) (by omega)
  · simp only [Option.map_some']
    rw [Option.some.injEq, hmapflags]
    exact hval0
  · simp only [Option.map_some']
    rw [Option.some.injEq, hmapflags]
    exact hvalop
  · simp only [Option.map_some']
  · simp only [Option.map_some']
    rw [Option.some.injEq]
    exact hmaptime

/-- Concrete well-formed input for the C8 witness: samples are nodes 0 and
1, the last edge has parent 4, node count 6. -/
def tsC8w : Tables :=
  { nodes := [ { flags := 1, name := "", population := -1, time := 0 },
               { flags := 1, name := "", population := -1, time := 0 },
               { flags := 0, name := "", population := -1, time := 1 },
               { flags := 0, name := "", population := -1, time := 2 },
               { flags := 0, name := "", population := -1, time := 3 },
               { flags := 0, name := "", population := -1, time := 4 } ],
    edges := [ { left := 0, right := 1, parent := 2, child := 0 },
               { left := 0, right := 1, parent := 4, child := 2 } ],
    sites := [], mutations := [] }

/-- Witness for the amended C8 at a concrete input. -/
theorem C8_jiggle_samples_witness :
    (jiggle_samples tsC8w).map (fun t => sampleCount t.nodes) =
      some (sampleCount tsC8w.nodes) ∧
    (jiggle_samples tsC8w).map (fun t => (t.nodes.map (fun nd => nd.flags))[0]?) =
      some (some 0) ∧
    (jiggle_samples tsC8w).map (fun t => (t.nodes.map (fun nd => nd.flags))[3]?) =
      some (some 1) ∧
    (jiggle_samples tsC8w).map (fun t => t.edges) = some tsC8w.edges ∧
    (jiggle_samples tsC8w).map (fun t => t.nodes.map (fun nd => nd.time)) =
      some (tsC8w.nodes.map (fun nd => nd.time)) := by
  have h := C8_jiggle_samples_amended tsC8w 2 4 (by decide) (by decide)
    (by decide) (by decide) (by decide)
  exact ⟨h.2.1, h.2.2.2.1, by simpa using h.2.2.2.2.2.1, h.2.2.2.2.2.2.2.1, h.2.2.2.2.2.2.2.2⟩

/-- C9: the tree sequence returned by jiggle_samples contains no sites and
no mutations, and every node keeps only its flags and time: names and
populations are reset to their defaults. -/
theorem C9_jiggle_samples_drops_metadata (ts t : Tables)
    (h : jiggle_samples ts = some t) :
    t.sites = [] ∧ t.mutations = [] ∧
    (∀ nd ∈ t.nodes, nd.name = "" ∧ nd.population = -1) ∧
    t.nodes.map (fun nd => nd.time) = ts.nodes.map (fun nd => nd.time) ∧
    t.edges = ts.edges := by
  unfold jiggle_samples at h
  rcases hl : (ts.edges.map (fun e => e.parent)).getLast? with _ | op
  · rw [hl] at h
    exact absurd h (by simp)
  · rw [hl] at h
    have ht := (Option.some.inj h).symm
    subst ht
    refine ⟨rfl, rfl, ?_, ?_, rfl⟩
    · intro nd hnd
      obtain ⟨p, _, hp⟩ := List.mem_map.mp hnd
      rw [← hp]
      exact ⟨rfl, rfl⟩
    · exact map_zip_nodeRow_time _ _ (by rw [length_jiggle_flags, List.length_map])

/-- Concrete input for the C9 witness: carries a named, population-tagged
node, one site and one mutation, all of which must be dropped or reset. -/
def tsC9 : Tables :=
  { nodes := [ { flags := 1, name := "a", population := 3, time := 0 },
               { flags := 0, name := "b", population := 2, time := 5 } ],
    edges := [ { left := 0, right := 1, parent := 1, child := 0 } ],
    sites := [ { position := 0, ancestral_state := "0" } ],
    mutations := [ { site := 0, node := 0, derived_state := "1", parent := -1 } ] }

/-- Witness for C9 at a concrete input. -/
theorem C9_jiggle_samples_witness :
    (jiggle_samples tsC9).elim False (fun t =>
      t.sites = [] ∧ t.mutations = [] ∧
      (∀ nd ∈ t.nodes, nd.name = "" ∧ nd.population = -1) ∧
      t.nodes.map (fun nd => nd.time) = tsC9.nodes.map (fun nd => nd.time) ∧
      t.edges = tsC9.edges) := by
  rcases hjs : jiggle_samples tsC9 with _ | t
  · exact absurd hjs (by decide)
  · simp only [hjs, Option.elim]
    exact C9_jiggle_samples_drops_metadata tsC9 t hjs


/-- One pass of the reverse-map construction of permute_nodes
(reverse_map[node_map[j]] = j for j in range(num_nodes), starting from a
zero list the length of node_map); none models the IndexError raised by
an out-of-range write or read. -/
def buildReverseMap (n : Nat) (node_map : List Nat) : Option (List Nat) :=
  (List.range n).foldlM (fun rm j =>
    match node_map.get? j with
    | none => none
    | some mj => if mj < rm.length then some (rm.set mj j) else none)
    (node_map.map (fun _ => 0))

/-- Translation of tsutil.permute_nodes: build the reverse map, rebuild
the node table by pulling row reverse_map[j] of the old table into
position j, relabel edge endpoints through node_map, copy the site
table, and rebuild the mutation table site by site (site.mutations of
the external library is the subsequence of mutations carrying that site
id, so the site id written back equals the mutation's own site id) WITH
the parent reference dropped to the add_row default -1; finally run the
canonical table sort (the external msprime.sort_tables, passed here as
the parameter sortT) over the four tables. -/
def permute_nodes (sortT : Tables → Tables) (ts : Tables)
    (node_map : List Nat) : Option Tables := do
  let n := ts.nodes.length
  let rm ← buildReverseMap n node_map
  let new_nodes ← (List.range n).mapM (fun j =>
    match rm.get? j with
    | none => none
    | some rj =>
      match ts.nodes.get? rj with
      | none => none
      | some old => some { flags := old.flags, name := old.name,
                           population := old.population, time := old.time })
  let new_edges ← ts.edges.mapM (fun e =>
    match node_map.get? e.parent, node_map.get? e.child with
    | some p2, some c2 =>
      some { left := e.left, right := e.right, parent := p2, child := c2 }
    | _, _ => none)
  let new_sites := ts.sites.map (fun s =>
    { position := s.position, ancestral_state := s.ancestral_state })
  let new_mutations ← ((List.range ts.sites.length).flatMap (fun si =>
      ts.mutations.filter (fun mu => mu.site = si))).mapM (fun mu =>
    match node_map.get? mu.node with
    | none => none
    | some nd2 => some { site := mu.site, node := nd2,
                         derived_state := mu.derived_state, parent := (-1 : Int) })
  some (sortT { nodes := new_nodes, edges := new_edges, sites := new_sites,
                mutations := new_mutations })

/-- Modelled from the spec: the contract of the canonical table-sort
routine (the external msprime.sort_tables) as used here — it never
touches the node table, it reorders the edge table, and on a table set
whose sites are already in nondecreasing position order it leaves the
site and mutation tables unchanged. -/
def SortSpec (sortT : Tables → Tables) : Prop :=
  ∀ t : Tables, (sortT t).nodes = t.nodes ∧ (sortT t).edges.Perm t.edges ∧
    (List.Pairwise (fun a b => a.position ≤ b.position) t.sites →
      (sortT t).sites = t.sites ∧ (sortT t).mutations = t.mutations)


theorem mapM_eq_some_map {α β : Type} (f : α → Option β) (g : α → β) :
    ∀ (l : List α), (∀ x ∈ l, f x = some (g x)) → l.mapM f = some (l.map g) := by
  intro l
  induction l with
  | nil => intro _; rfl
  | cons a l ih =>
    intro h
    rw [List.mapM_cons, h a (List.mem_cons_self a l),
      ih (fun x hx => h x (List.mem_cons_of_mem a hx))]
    rfl

theorem buildRM_loop (node_map : List Nat) (n : Nat)
    (hr : ∀ mj ∈ node_map, mj < n)
    (hinj : ∀ j1 j2 i, node_map.get? j1 = some i → node_map.get? j2 = some i →
      j1 = j2) :
    ∀ (js : List Nat) (rm0 : List Nat), rm0.length = n →
    (∀ j ∈ js, j < node_map.length) →
    ∃ rm, (js.foldlM (fun rm j =>
        match node_map.get? j with
        | none => none
        | some mj => if mj < rm.length then some (rm.set mj j) else none)
        rm0) = some rm ∧
      rm.length = n ∧
      (∀ j i, j ∈ js → node_map.get? j = some i → rm.get? i = some j) ∧
      (∀ i, (∀ j ∈ js, node_map.get? j ≠ some i) → rm.get? i = rm0.get? i) ∧
      (∀ v ∈ rm, v ∈ rm0 ∨ v ∈ js) := by
  intro js
  induction js with
  | nil =>
    intro rm0 hlen _
    exact ⟨rm0, rfl, hlen, by simp, fun i _ => rfl, fun v hv => Or.inl hv⟩
  | cons j js ih =>
    intro rm0 hlen hjs
    have hj : j < node_map.length := hjs j (List.mem_cons_self j js)
    rcases hget : node_map.get? j with _ | mj
    · rw [List.get?_eq_none] at hget
      omega
    · have hmjn : mj < n := hr mj (List.get?_mem hget)
      obtain ⟨rm, hrun, hlenF, hSet, hPres, hMem⟩ := ih (rm0.set mj j)
        (by rw [List.length_set]; exact hlen)
        (fun j2 hj2 => hjs j2 (List.mem_cons_of_mem j hj2))
      refine ⟨rm, ?_, hlenF, ?_, ?_, ?_⟩
      · rw [List.foldlM_cons]
        simp only [hget]
        rw [if_pos (by rw [hlen]; exact hmjn)]
        exact hrun
      · intro j2 i hj2 hi
        rcases List.mem_cons.mp hj2 with he | hm
        · subst he
          rw [hget] at hi
          cases hi
          by_cases hc : ∀ j3 ∈ js, node_map.get? j3 ≠ some mj
          · rw [hPres mj hc, List.get?_eq_getElem?,
              List.getElem?_set_self (by rw [hlen]; exact hmjn)]
          · push_neg at hc
            obtain ⟨j3, hj3, hj3e⟩ := hc
            have h33 : j3 = j2 := hinj j3 j2 mj hj3e hget
            rw [h33] at hj3
            exact hSet j2 mj hj3 hget
        · exact hSet j2 i hm hi
      · intro i hni
        have hnotin : ∀ j3 ∈ js, node_map.get? j3 ≠ some i :=
          fun j3 h3 => hni j3 (List.mem_cons_of_mem j h3)
        rw [hPres i hnotin]
        have hne : mj ≠ i := fun he => hni j (List.mem_cons_self j js)
          (by rw [hget, he])
        rw [List.get?_eq_getElem?, List.get?_eq_getElem?, List.getElem?_set_ne hne]
      · intro v hv
        rcases hMem v hv with h1 | h1
        · rcases List.mem_or_eq_of_mem_set h1 with h2 | h2
          · exact Or.inl h2
          · exact Or.inr (by rw [h2]; exact List.mem_cons_self j js)
        · exact Or.inr (List.mem_cons_of_mem j h1)


theorem flatMap_congr_on {α β : Type} (l : List α) (f g : α → List β)
    (h : ∀ x ∈ l, f x = g x) : l.flatMap f = l.flatMap g := by
  induction l with
  | nil => rfl
  | cons a l ih =>
    rw [List.flatMap_cons, List.flatMap_cons, h a (List.mem_cons_self a l),
      ih (fun x hx => h x (List.mem_cons_of_mem a hx))]

theorem regroup_perm {α : Type} (f : α → Nat) :
    ∀ (k : Nat) (l : List α), (∀ x ∈ l, f x < k) →
    ((List.range k).flatMap (fun si =>
      l.filter (fun x => decide (f x = si)))).Perm l := by
  intro k
  induction k with
  | zero =>
    intro l hl
    have hnil : l = [] := by
      cases l with
      | nil => rfl
      | cons a l2 => exact absurd (hl a (List.mem_cons_self a l2)) (by omega)
    rw [hnil]
    simp
  | succ k ih =>
    intro l hl
    rw [List.range_succ, List.flatMap_append, List.flatMap_cons, List.flatMap_nil,
      List.append_nil]
    have hA : (List.range k).flatMap (fun si =>
        l.filter (fun x => decide (f x = si))) =
        (List.range k).flatMap (fun si =>
          (l.filter (fun x => !decide (f x = k))).filter
            (fun x => decide (f x = si))) := by
      apply flatMap_congr_on
      intro si hsi
      have hsik : si ≠ k := by
        have := List.mem_range.mp hsi
        omega
      rw [List.filter_filter]
      apply List.filter_congr
      intro x _
      by_cases hx : f x = si
      · simp [hx, hsik]
      · simp [hx]
    rw [hA]
    have h2 : ((List.range k).flatMap (fun si =>
        (l.filter (fun x => !decide (f x = k))).filter
          (fun x => decide (f x = si)))).Perm
        (l.filter (fun x => !decide (f x = k))) := by
      apply ih
      intro x hx
      obtain ⟨hxl, hxp⟩ := List.mem_filter.mp hx
      have hfk : ¬ (f x = k) := by
        intro he
        simp [he] at hxp
      have := hl x hxl
      omega
    refine List.Perm.trans (List.Perm.append h2 (List.Perm.refl _)) ?_
    refine List.Perm.trans List.perm_append_comm ?_
    exact List.filter_append_perm (fun x => decide (f x = k)) l


theorem permute_nodes_spec (sortT : Tables → Tables) (hsort : SortSpec sortT)
    (ts : Tables) (node_map node_map_inv : List Nat)
    (hNlen : node_map.length = ts.nodes.length)
    (hrange : ∀ mj ∈ node_map, mj < ts.nodes.length)
    (hLR : ∀ j (hj : j < node_map.length),
      node_map_inv.get? (node_map.get ⟨j, hj⟩) = some j)
    (hedge : ∀ e ∈ ts.edges, e.parent < ts.nodes.length ∧
      e.child < ts.nodes.length)
    (hmutn : ∀ mu ∈ ts.mutations, mu.node < ts.nodes.length)
    (hmsite : ∀ mu ∈ ts.mutations, mu.site < ts.sites.length)
    (hsites : List.Pairwise (fun a b => a.position ≤ b.position) ts.sites) :
    ∃ t1, permute_nodes sortT ts node_map = some t1 ∧
      t1.nodes.length = ts.nodes.length ∧
      (∀ j mj, node_map.get? j = some mj → t1.nodes.get? mj = ts.nodes.get? j) ∧
      t1.edges.Perm (ts.edges.map (fun e =>
        { left := e.left, right := e.right,
          parent := (node_map.get? e.parent).getD 0,
          child := (node_map.get? e.child).getD 0 })) ∧
      t1.sites = ts.sites ∧
      t1.mutations.Perm (ts.mutations.map (fun mu =>
        { site := mu.site, node := (node_map.get? mu.node).getD 0,
          derived_state := mu.derived_state, parent := (-1 : Int) })) := by
  have hinj : ∀ j1 j2 i, node_map.get? j1 = some i → node_map.get? j2 = some i →
      j1 = j2 := by
    intro j1 j2 i h1 h2
    obtain ⟨hj1, hv1⟩ := List.get?_eq_some.mp h1
    obtain ⟨hj2, hv2⟩ := List.get?_eq_some.mp h2
    have e1 := hLR j1 hj1
    have e2 := hLR j2 hj2
    rw [hv1] at e1
    rw [hv2] at e2
    rw [e1] at e2
    exact Option.some.inj e2
  obtain ⟨rm, hrun, hlenF, hSet, _, hMem⟩ :=
    buildRM_loop node_map ts.nodes.length hrange hinj (List.range ts.nodes.length)
      (node_map.map (fun _ => 0))
      (by rw [List.length_map]; exact hNlen)
      (fun j hj => by rw [hNlen]; exact List.mem_range.mp hj)
  have hrm2 : buildReverseMap ts.nodes.length node_map = some rm := hrun
  have hrm_lt : ∀ v ∈ rm, v < ts.nodes.length := by
    intro v hv
    rcases hMem v hv with h1 | h1
    · obtain ⟨_, _, hv0⟩ := List.mem_map.mp h1
      have hpos : 0 < rm.length := List.length_pos_of_mem hv
      rw [hlenF] at hpos
      omega
    · exact List.mem_range.mp h1
  -- the node pass
  have hnodes2 : (List.range ts.nodes.length).mapM (fun j =>
      match rm.get? j with
      | none => none
      | some rj =>
        match ts.nodes.get? rj with
        | none => none
        | some old => some { flags := old.flags, name := old.name,
                             population := old.population, time := old.time }) =
      some ((List.range ts.nodes.length).map (fun j =>
        ((rm.get? j).bind (fun rj => ts.nodes.get? rj)).getD
          ({ flags := 0, name := "", population := 0, time := 0 } : NodeRow))) := by
    apply mapM_eq_some_map
    intro j hj
    have hjn : j < ts.nodes.length := List.mem_range.mp hj
    rcases hrj : rm.get? j with _ | rj
    · rw [List.get?_eq_none] at hrj
      omega
    · have hrjn : rj < ts.nodes.length := hrm_lt rj (List.get?_mem hrj)
      rcases hold : ts.nodes.get? rj with _ | old
      · rw [List.get?_eq_none] at hold
        omega
      · simp only [hrj, hold, Option.some_bind, Option.getD_some]
  -- the edge pass
  have hedges2 : ts.edges.mapM (fun e =>
      match node_map.get? e.parent, node_map.get? e.child with
      | some p2, some c2 =>
        some ({ left := e.left, right := e.right, parent := p2,
                child := c2 } : EdgeRow)
      | _, _ => none) =
      some (ts.edges.map (fun e =>
        ({ left := e.left, right := e.right,
           parent := (node_map.get? e.parent).getD 0,
           child := (node_map.get? e.child).getD 0 } : EdgeRow))) := by
    apply mapM_eq_some_map
    intro e he
    obtain ⟨hp, hc⟩ := hedge e he
    rcases hp2 : node_map.get? e.parent with _ | p2
    · rw [List.get?_eq_none] at hp2
      omega
    · rcases hc2 : node_map.get? e.child with _ | c2
      · rw [List.get?_eq_none] at hc2
        omega
      · simp only [hp2, hc2, Option.getD_some]
  -- the mutation pass
  have hgrp : ∀ mu ∈ (List.range ts.sites.length).flatMap (fun si =>
      ts.mutations.filter (fun mu => decide (mu.site = si))), mu ∈ ts.mutations := by
    intro mu hmu
    obtain ⟨si, _, hmu2⟩ := List.mem_flatMap.mp hmu
    exact (List.mem_filter.mp hmu2).1
  have hmuts2 : ((List.range ts.sites.length).flatMap (fun si =>
      ts.mutations.filter (fun mu => decide (mu.site = si)))).mapM (fun mu =>
      match node_map.get? mu.node with
      | none => none
      | some nd2 => some ({ site := mu.site, node := nd2,
                            derived_state := mu.derived_state,
                            parent := (-1 : Int) } : MutRow)) =
      some (((List.range ts.sites.length).flatMap (fun si =>
        ts.mutations.filter (fun mu => decide (mu.site = si)))).map (fun mu =>
        ({ site := mu.site, node := (node_map.get? mu.node).getD 0,
           derived_state := mu.derived_state, parent := (-1 : Int) } : MutRow))) := by
    apply mapM_eq_some_map
    intro mu hmu
    have hn := hmutn mu (hgrp mu hmu)
    rcases hn2 : node_map.get? mu.node with _ | nd2
    · rw [List.get?_eq_none] at hn2
      omega
    · simp only [hn2, Option.getD_some]
  have hsiteseq : ts.sites.map (fun s =>
      { position := s.position, ancestral_state := s.ancestral_state }) = ts.sites :=
    List.map_id ts.sites
  have hperm : permute_nodes sortT ts node_map = some (sortT
      { nodes := (List.range ts.nodes.length).map (fun j =>
          ((rm.get? j).bind (fun rj => ts.nodes.get? rj)).getD
            ({ flags := 0, name := "", population := 0, time := 0 } : NodeRow))
        edges := ts.edges.map (fun e =>
          { left := e.left
            right := e.right
            parent := (node_map.get? e.parent).getD 0
            child := (node_map.get? e.child).getD 0 })
        sites := ts.sites.map (fun s =>
          { position := s.position, ancestral_state := s.ancestral_state })
        mutations := ((List.range ts.sites.length).flatMap (fun si =>
          ts.mutations.filter (fun mu => decide (mu.site = si)))).map (fun mu =>
          { site := mu.site
            node := (node_map.get? mu.node).getD 0
            derived_state := mu.derived_state
            parent := (-1 : Int) }) }) := by
    simp only [permute_nodes, hrm2, Option.bind_eq_bind, Option.some_bind,
      hnodes2, hedges2, hmuts2]
  have hpre := hsort
    { nodes := (List.range ts.nodes.length).map (fun j =>
        ((rm.get? j).bind (fun rj => ts.nodes.get? rj)).getD
          ({ flags := 0, name := "", population := 0, time := 0 } : NodeRow))
      edges := ts.edges.map (fun e =>
        { left := e.left
          right := e.right
          parent := (node_map.get? e.parent).getD 0
          child := (node_map.get? e.child).getD 0 })
      sites := ts.sites.map (fun s =>
        { position := s.position, ancestral_state := s.ancestral_state })
      mutations := ((List.range ts.sites.length).flatMap (fun si =>
        ts.mutations.filter (fun mu => decide (mu.site = si)))).map (fun mu =>
        { site := mu.site
          node := (node_map.get? mu.node).getD 0
          derived_state := mu.derived_state
          parent := (-1 : Int) }) }
  obtain ⟨hTn, hTe, hTsm⟩ := hpre
  obtain ⟨hTs, hTm⟩ := hTsm (by
    show List.Pairwise _ (ts.sites.map _)
    rw [hsiteseq]
    exact hsites)
  refine ⟨_, hperm, ?_, ?_, ?_, ?_, ?_⟩
  · rw [hTn]
    show ((List.range ts.nodes.length).map _).length = _
    rw [List.length_map, List.length_range]
  · intro j mj hget
    rw [hTn]
    obtain ⟨hj, _⟩ := List.get?_eq_some.mp hget
    rw [hNlen] at hj
    have hmj : mj < ts.nodes.length := hrange mj (List.get?_mem hget)
    have hrmget : rm.get? mj = some j :=
      hSet j mj (List.mem_range.mpr hj) hget
    rcases hold : ts.nodes.get? j with _ | old
    · rw [List.get?_eq_none] at hold
      omega
    · show (((List.range ts.nodes.length).map _)).get? mj = _
      rw [List.get?_eq_getElem?, List.getElem?_map, List.getElem?_range hmj]
      simp only [Option.map_some', hrmget, Option.some_bind, hold, Option.getD_some]
  · exact hTe
  · rw [hTs]
    exact hsiteseq
  · rw [hTm]
    exact List.Perm.map _ (regroup_perm (fun mu => mu.site) ts.sites.length
      ts.mutations hmsite)


/-- C5 (amended): permuting the nodes of a tree sequence by a bijection
and then by its inverse restores the node table exactly and the edge and
site tables up to the canonical sort, but every mutation comes back with
its parent reference CLEARED to -1 (permute_nodes never copies the
parent column), so the original mutation table is reproduced only after
nulling its parent references. -/
theorem C5_permute_roundtrip_amended (sortT : Tables → Tables)
    (hsort : SortSpec sortT) (ts : Tables) (node_map node_map_inv : List Nat)
    (hNlen : node_map.length = ts.nodes.length)
    (hrange : ∀ mj ∈ node_map, mj < ts.nodes.length)
    (hLR : ∀ j (hj : j < node_map.length),
      node_map_inv.get? (node_map.get ⟨j, hj⟩) = some j)
    (hIlen : node_map_inv.length = ts.nodes.length)
    (hIrange : ∀ mj ∈ node_map_inv, mj < ts.nodes.length)
    (hRL : ∀ j (hj : j < node_map_inv.length),
      node_map.get? (node_map_inv.get ⟨j, hj⟩) = some j)
    (hedge : ∀ e ∈ ts.edges, e.parent < ts.nodes.length ∧
      e.child < ts.nodes.length)
    (hmutn : ∀ mu ∈ ts.mutations, mu.node < ts.nodes.length)
    (hmsite : ∀ mu ∈ ts.mutations, mu.site < ts.sites.length)
    (hsites : List.Pairwise (fun a b => a.position ≤ b.position) ts.sites) :
    ∃ t1 t2, permute_nodes sortT ts node_map = some t1 ∧
      permute_nodes sortT t1 node_map_inv = some t2 ∧
      t2.nodes = ts.nodes ∧
      t2.edges.Perm ts.edges ∧
      t2.sites = ts.sites ∧
      t2.mutations.Perm (ts.mutations.map (fun mu =>
        { site := mu.site, node := mu.node,
          derived_state := mu.derived_state, parent := (-1 : Int) })) := by
  obtain ⟨t1, hp1, hlen1, hnod1, hedg1, hsit1, hmut1⟩ :=
    permute_nodes_spec sortT hsort ts node_map node_map_inv hNlen hrange hLR
      hedge hmutn hmsite hsites
  have hfwd : ∀ i, i < ts.nodes.length → ∃ k, node_map.get? i = some k ∧
      node_map_inv.get? k = some i ∧ k < ts.nodes.length := by
    intro i hi
    have hi2 : i < node_map.length := by omega
    rcases hk : node_map.get? i with _ | k
    · rw [List.get?_eq_none] at hk
      omega
    · have hkeq : node_map.get ⟨i, hi2⟩ = k := by
        have h3 := List.get?_eq_get hi2
        rw [hk] at h3
        exact (Option.some.inj h3).symm
      have hinvk : node_map_inv.get? k = some i := by
        have h3 := hLR i hi2
        rw [hkeq] at h3
        exact h3
      exact ⟨k, rfl, hinvk, hrange k (List.get?_mem hk)⟩
  have hedge2 : ∀ e ∈ t1.edges, e.parent < t1.nodes.length ∧
      e.child < t1.nodes.length := by
    intro e he
    obtain ⟨e0, he0, heq⟩ := List.mem_map.mp (hedg1.mem_iff.mp he)
    obtain ⟨hp0, hc0⟩ := hedge e0 he0
    obtain ⟨kp, hkp, _, hkpn⟩ := hfwd e0.parent hp0
    obtain ⟨kc, hkc, _, hkcn⟩ := hfwd e0.child hc0
    rw [hlen1, ← heq]
    constructor
    · show (node_map.get? e0.parent).getD 0 < ts.nodes.length
      rw [hkp]
      exact hkpn
    · show (node_map.get? e0.child).getD 0 < ts.nodes.length
      rw [hkc]
      exact hkcn
  have hmutn2 : ∀ mu ∈ t1.mutations, mu.node < t1.nodes.length := by
    intro mu hmu
    obtain ⟨mu0, hmu0, heq⟩ := List.mem_map.mp (hmut1.mem_iff.mp hmu)
    obtain ⟨k, hk, _, hkn⟩ := hfwd mu0.node (hmutn mu0 hmu0)
    rw [hlen1, ← heq]
    show (node_map.get? mu0.node).getD 0 < ts.nodes.length
    rw [hk]
    exact hkn
  have hmsite2 : ∀ mu ∈ t1.mutations, mu.site < t1.sites.length := by
    intro mu hmu
    obtain ⟨mu0, hmu0, heq⟩ := List.mem_map.mp (hmut1.mem_iff.mp hmu)
    rw [hsit1, ← heq]
    show mu0.site < ts.sites.length
    exact hmsite mu0 hmu0
  obtain ⟨t2, hp2, hlen2, hnod2, hedg2, hsit2, hmut2⟩ :=
    permute_nodes_spec sortT hsort t1 node_map_inv node_map
      (by rw [hlen1]; exact hIlen)
      (fun mj hmj => by rw [hlen1]; exact hIrange mj hmj)
      hRL hedge2 hmutn2 hmsite2 (by rw [hsit1]; exact hsites)
  refine ⟨t1, t2, hp1, hp2, ?_, ?_, ?_, ?_⟩
  · apply List.ext_get?
    intro i
    by_cases hi : i < ts.nodes.length
    · obtain ⟨k, hk, hinvk, _⟩ := hfwd i hi
      rw [hnod2 k i hinvk, hnod1 i k hk]
    · have hn2 : t2.nodes.get? i = none := by
        rw [List.get?_eq_none, hlen2, hlen1]
        omega
      have hn0 : ts.nodes.get? i = none := by
        rw [List.get?_eq_none]
        omega
      rw [hn2, hn0]
  · have hcomp : ∀ e ∈ ts.edges,
        ((fun e => ({ left := e.left
                      right := e.right
                      parent := (node_map_inv.get? e.parent).getD 0
                      child := (node_map_inv.get? e.child).getD 0 } : EdgeRow)) ∘
         (fun e => ({ left := e.left
                      right := e.right
                      parent := (node_map.get? e.parent).getD 0
                      child := (node_map.get? e.child).getD 0 } : EdgeRow))) e =
          id e := by
      intro e he
      obtain ⟨hp0, hc0⟩ := hedge e he
      obtain ⟨kp, hkp, hikp, _⟩ := hfwd e.parent hp0
      obtain ⟨kc, hkc, hikc, _⟩ := hfwd e.child hc0
      show ({ left := e.left
              right := e.right
              parent := (node_map_inv.get? ((node_map.get? e.parent).getD 0)).getD 0
              child := (node_map_inv.get? ((node_map.get? e.child).getD 0)).getD 0 }
          : EdgeRow) = e
      rw [hkp, hkc]
      show ({ left := e.left
              right := e.right
              parent := (node_map_inv.get? kp).getD 0
              child := (node_map_inv.get? kc).getD 0 } : EdgeRow) = e
      rw [hikp, hikc]
      rfl
    refine hedg2.trans ?_
    refine (hedg1.map _).trans ?_
    rw [List.map_map, List.map_congr_left hcomp, List.map_id]
  · rw [hsit2, hsit1]
  · have hcompm : ∀ mu ∈ ts.mutations,
        ((fun mu => ({ site := mu.site
                       node := (node_map_inv.get? mu.node).getD 0
                       derived_state := mu.derived_state
                       parent := (-1 : Int) } : MutRow)) ∘
         (fun mu => ({ site := mu.site
                       node := (node_map.get? mu.node).getD 0
                       derived_state := mu.derived_state
                       parent := (-1 : Int) } : MutRow))) mu =
        (fun mu => ({ site := mu.site
                      node := mu.node
                      derived_state := mu.derived_state
                      parent := (-1 : Int) } : MutRow)) mu := by
      intro mu hmu
      obtain ⟨k, hk, hik, _⟩ := hfwd mu.node (hmutn mu hmu)
      show ({ site := mu.site
              node := (node_map_inv.get? ((node_map.get? mu.node).getD 0)).getD 0
              derived_state := mu.derived_state
              parent := (-1 : Int) } : MutRow) = _
      rw [hk]
      show ({ site := mu.site
              node := (node_map_inv.get? k).getD 0
              derived_state := mu.derived_state
              parent := (-1 : Int) } : MutRow) = _
      rw [hik]
      rfl
    refine hmut2.trans ?_
    refine (hmut1.map _).trans ?_
    rw [List.map_map, List.map_congr_left hcompm]


/-- The counterexample tree sequence for the permutation roundtrip: two
nodes, one edge, one site and two mutations, the second mutation
carrying a non-null parent reference. -/
def tsC5 : Tables :=
  { nodes := [ { flags := 1, name := "a", population := 0, time := 0 },
               { flags := 0, name := "b", population := 1, time := 5 } ],
    edges := [ { left := 0, right := 10, parent := 1, child := 0 } ],
    sites := [ { position := 2, ancestral_state := "0" } ],
    mutations := [ { site := 0, node := 0, derived_state := "1", parent := -1 },
                   { site := 0, node := 0, derived_state := "0", parent := 0 } ] }

/-- Counterexample to C5 as stated: permuting tsC5 by the swap [1, 0] and
back (under the identity table sort, which satisfies the canonical-sort
contract) restores everything EXCEPT the second mutation's parent
reference, which comes back as -1 instead of 0 — the roundtrip does not
reproduce the original mutation table. -/
theorem C5_counterexample :
    SortSpec (fun t => t) ∧
    (permute_nodes (fun t => t) tsC5 [1, 0]).bind
      (fun t1 => permute_nodes (fun t => t) t1 [1, 0]) =
      some { nodes := tsC5.nodes, edges := tsC5.edges, sites := tsC5.sites,
             mutations :=
               [ { site := 0, node := 0, derived_state := "1", parent := -1 },
                 { site := 0, node := 0, derived_state := "0", parent := -1 } ] } ∧
    ¬ ((permute_nodes (fun t => t) tsC5 [1, 0]).bind
      (fun t1 => permute_nodes (fun t => t) t1 [1, 0]) = some tsC5) := by
  refine ⟨?_, by decide, by decide⟩
  intro t
  exact ⟨rfl, List.Perm.refl _, fun _ => ⟨rfl, rfl⟩⟩

/-- Witness for C5: the amended roundtrip at tsC5 under the swap [1, 0],
its own inverse, with the identity sort. -/
theorem C5_witness :
    ∃ t1 t2, permute_nodes (fun t => t) tsC5 [1, 0] = some t1 ∧
      permute_nodes (fun t => t) t1 [1, 0] = some t2 ∧
      t2.nodes = tsC5.nodes ∧
      t2.edges.Perm tsC5.edges ∧
      t2.sites = tsC5.sites ∧
      t2.mutations.Perm (tsC5.mutations.map (fun mu =>
        { site := mu.site, node := mu.node,
          derived_state := mu.derived_state, parent := (-1 : Int) })) :=
  C5_permute_roundtrip_amended (fun t => t)
    (fun t => ⟨rfl, List.Perm.refl _, fun _ => ⟨rfl, rfl⟩⟩)
    tsC5 [1, 0] [1, 0] (by decide) (by decide) (by decide) (by decide)
    (by decide) (by decide) (by decide) (by decide) (by decide) (by decide)

/-- Modelled from the spec: one tree of the external library's tree
iteration, as insert_branch_mutations consumes it — the tree interval's
left boundary, the root list, and the children and parent accessors
(parent none models msprime.NULL_NODE). -/
structure TreeModel where
  left : ℚ
  roots : List Nat
  children : Nat → List Nat
  parent : Nat → Option Nat

/-- The inner loop of insert_branch_mutations (for j in
range(mutations_per_branch)): toggle the binary state, record the index
of the row about to be appended as the node's latest mutation, append
the row carrying the current parent reference, and chain the parent to
that new index.  Returns the final state value, the node's latest
mutation index (unchanged input when the loop runs zero times, as then
mutation[u] is never assigned) and the extended table. -/
def emitBranch (site u : Nat) : Nat → Int → Int → Option Int → List MutRow →
    Int × Option Int × List MutRow
  | 0, su, _, lastIdx, muts => (su, lastIdx, muts)
  | j + 1, su, par, _, muts =>
    emitBranch site u j ((su + 1) % 2) (muts.length : Int)
      (some (muts.length : Int))
      (muts ++ [{ site := site, node := u,
                  derived_state := toString ((su + 1) % 2), parent := par }])

/-- The stack walk of insert_branch_mutations for one root: pop from the
Python list's end, extend the stack with the node's children, and when
the node has a parent read the parent's state and latest-mutation
dictionary entries (a missing entry is the KeyError, modelled as none)
and run the per-branch loop.  Fueled recursion; fuel exhaustion is also
none. -/
def ibm_walk (tree : TreeModel) (site mpb : Nat) : Nat → List Nat →
    (Nat → Option Int) → (Nat → Option Int) → List MutRow →
    Option (List MutRow)
  | 0, _, _, _, _ => none
  | fuel + 1, stack, state, mutd, muts =>
    match stack.getLast? with
    | none => some muts
    | some u =>
      let stack2 := stack.dropLast ++ tree.children u
      match tree.parent u with
      | none => ibm_walk tree site mpb fuel stack2 state mutd muts
      | some v =>
        match state v, mutd v with
        | some sv, some mv =>
          let r := emitBranch site u mpb sv mv none muts
          ibm_walk tree site mpb fuel stack2
            (fun x => if x = u then some r.1 else state x)
            (fun x => if x = u then
                (match r.2.1 with
                 | some mi => some mi
                 | none => mutd x)
              else mutd x)
            r.2.2
        | _, _ => none

/-- The per-tree body of insert_branch_mutations: append one site row at
the tree interval's left boundary (its id is the current site count),
then walk every root of the tree. -/
def ibm_tree_step (mpb fuel : Nat) (acc : List SiteRow × List MutRow)
    (tree : TreeModel) : Option (List SiteRow × List MutRow) := do
  let mutsA ← tree.roots.foldlM (fun m root =>
    ibm_walk tree acc.1.length mpb fuel [root]
      (fun x => if x = root then some 0 else none)
      (fun x => if x = root then some (-1) else none) m) acc.2
  pure (acc.1 ++ [{ position := tree.left, ancestral_state := "0" }], mutsA)

/-- Translation of tsutil.insert_branch_mutations: for every tree of the
input append one site row, walking each of its roots depth-first to
place mutations_per_branch chained mutations per branch; the node and
edge tables are carried over unchanged and the fresh site and mutation
tables replace the old ones. -/
def insert_branch_mutations (trees : List TreeModel) (mpb fuel : Nat)
    (ts : Tables) : Option Tables := do
  let out ← trees.foldlM (ibm_tree_step mpb fuel) (([] : List SiteRow), [])
  some { nodes := ts.nodes, edges := ts.edges, sites := out.1,
         mutations := out.2 }

/-- The counterexample tree for the one-site-per-tree behaviour: a single
tree with two roots and no branches. -/
def treeC6 : TreeModel :=
  { left := 0, roots := [1, 2], children := fun _ => [],
    parent := fun _ => none }

/-- The counterexample table set for C6. -/
def tsC6 : Tables :=
  { nodes := [ { flags := 1, name := "", population := 0, time := 0 },
               { flags := 0, name := "", population := 0, time := 1 },
               { flags := 0, name := "", population := 0, time := 1 } ],
    edges := [], sites := [], mutations := [] }

/-- Counterexample to C6 as stated: a tree with TWO roots yields ONE new
site, not one site per tree-and-root pair — the site row is appended per
tree, outside the root loop. -/
theorem C6_counterexample :
    treeC6.roots.length = 2 ∧
    (insert_branch_mutations [treeC6] 1 9 tsC6).map
      (fun t => t.sites.length) = some 1 := ⟨rfl, by decide⟩


theorem emitBranch_spec (site u : Nat) : ∀ (mpb : Nat) (su par : Int)
    (lastIdx : Option Int) (muts : List MutRow),
    ∃ su2 mu2,
      emitBranch site u mpb su par lastIdx muts =
        (su2, mu2, muts ++ (List.range mpb).map (fun (j : Nat) =>
          ({ site := site
             node := u
             derived_state := toString ((su + (j : Int) + 1) % 2)
             parent := if j = 0 then par
               else (muts.length : Int) + (j : Int) - 1 } : MutRow))) ∧
      (mpb = 0 → su2 = su ∧ mu2 = lastIdx) ∧
      (0 < mpb → su2 = (su + (mpb : Int)) % 2 ∧
        mu2 = some ((muts.length : Int) + (mpb : Int) - 1)) := by
  intro mpb
  induction mpb with
  | zero =>
    intro su par lastIdx muts
    refine ⟨su, lastIdx, ?_, fun _ => ⟨rfl, rfl⟩, by omega⟩
    simp [emitBranch]
  | succ j ih =>
    intro su par lastIdx muts
    obtain ⟨su2, mu2, heq, h0, hpos⟩ := ih ((su + 1) % 2) (muts.length : Int)
      (some (muts.length : Int))
      (muts ++ [{ site := site, node := u,
                  derived_state := toString ((su + 1) % 2), parent := par }])
    refine ⟨su2, mu2, ?_, by omega, ?_⟩
    · have hred : emitBranch site u (j + 1) su par lastIdx muts =
          emitBranch site u j ((su + 1) % 2) (muts.length : Int)
            (some (muts.length : Int))
            (muts ++ [{ site := site, node := u,
                        derived_state := toString ((su + 1) % 2),
                        parent := par }]) := rfl
      rw [hred, heq]
      congr 1
      congr 1
      rw [List.append_assoc, List.singleton_append,
        List.range_succ_eq_map, List.map_cons, List.map_map]
      congr 1
      · simp
        intro a ha
        refine ⟨by congr 1; push_cast; omega, ?_⟩
        by_cases h1 : a = 0
        · subst h1
          rw [if_pos rfl]
          push_cast
          omega
        · rw [if_neg h1]
          push_cast
          omega
    · intro _
      by_cases hj : j = 0
      · subst hj
        obtain ⟨hs, hm⟩ := h0 rfl
        constructor
        · rw [hs]
          omega
        · rw [hm]
          congr 1
          omega
      · obtain ⟨hs, hm⟩ := hpos (by omega)
        constructor
        · rw [hs]
          push_cast
          omega
        · rw [hm]
          congr 1
          simp only [List.length_append, List.length_singleton]
          push_cast
          omega

theorem ibm_fold_sites (mpb fuel : Nat) : ∀ (trees : List TreeModel)
    (acc out : List SiteRow × List MutRow),
    trees.foldlM (ibm_tree_step mpb fuel) acc = some out →
    out.1 = acc.1 ++ trees.map (fun tr =>
      ({ position := tr.left, ancestral_state := "0" } : SiteRow)) := by
  intro trees
  induction trees with
  | nil =>
    intro acc out h
    have h2 : some acc = some out := h
    cases h2
    simp
  | cons tr trees ih =>
    intro acc out h
    rw [List.foldlM_cons] at h
    rcases hstep : ibm_tree_step mpb fuel acc tr with _ | acc2
    · rw [hstep] at h
      simp at h
    · rw [hstep] at h
      have h2 : trees.foldlM (ibm_tree_step mpb fuel) acc2 = some out := h
      have hsites : acc2.1 = acc.1 ++
          [({ position := tr.left, ancestral_state := "0" } : SiteRow)] := by
        unfold ibm_tree_step at hstep
        rcases hroot : tr.roots.foldlM (fun m root =>
            ibm_walk tr acc.1.length mpb fuel [root]
              (fun x => if x = root then some 0 else none)
              (fun x => if x = root then some (-1) else none) m) acc.2
            with _ | m2
        · rw [hroot] at hstep
          simp at hstep
        · rw [hroot] at hstep
          have h3 : some ((acc.1 ++
              [({ position := tr.left, ancestral_state := "0" } : SiteRow)],
              m2) : List SiteRow × List MutRow) = some acc2 := hstep
          cases h3
          rfl
      rw [ih acc2 out h2, hsites, List.append_assoc]
      rfl

/-- C6 (amended): insert_branch_mutations creates exactly ONE new site
per TREE (at the tree interval's left boundary) — not one per
tree-and-root pair — carrying the node and edge tables over unchanged;
and the per-branch loop appends mutations_per_branch mutations whose
derived states toggle the binary state down the lineage starting from
the inherited state, the first appended mutation chaining its parent
reference to the lineage's previous mutation and each later one to its
immediate predecessor, the node's latest-mutation entry ending at the
last appended row. -/
theorem C6_insert_branch_mutations_amended :
    (∀ (trees : List TreeModel) (mpb fuel : Nat) (ts t : Tables),
        insert_branch_mutations trees mpb fuel ts = some t →
        t.sites = trees.map (fun tr =>
          ({ position := tr.left, ancestral_state := "0" } : SiteRow)) ∧
        t.nodes = ts.nodes ∧ t.edges = ts.edges) ∧
    (∀ (site u mpb : Nat) (su par : Int) (lastIdx : Option Int)
        (muts : List MutRow),
        ∃ su2 mu2,
          emitBranch site u mpb su par lastIdx muts =
            (su2, mu2, muts ++ (List.range mpb).map (fun (j : Nat) =>
              ({ site := site
                 node := u
                 derived_state := toString ((su + (j : Int) + 1) % 2)
                 parent := if j = 0 then par
                   else (muts.length : Int) + (j : Int) - 1 } : MutRow))) ∧
          (mpb = 0 → su2 = su ∧ mu2 = lastIdx) ∧
          (0 < mpb → su2 = (su + (mpb : Int)) % 2 ∧
            mu2 = some ((muts.length : Int) + (mpb : Int) - 1))) := by
  constructor
  · intro trees mpb fuel ts t h
    unfold insert_branch_mutations at h
    rcases hfold : trees.foldlM (ibm_tree_step mpb fuel)
        (([] : List SiteRow), ([] : List MutRow)) with _ | out
    · rw [hfold] at h
      simp at h
    · rw [hfold] at h
      have h2 : some ({ nodes := ts.nodes
                        edges := ts.edges
                        sites := out.1
                        mutations := out.2 } : Tables) = some t := h
      cases h2
      refine ⟨?_, rfl, rfl⟩
      show out.1 = _
      rw [ibm_fold_sites mpb fuel trees _ out hfold]
      rfl
  · intro site u mpb su par lastIdx muts
    exact emitBranch_spec site u mpb su par lastIdx muts

/-- The witness tree for C6: one root with one child below it. -/
def treeC6w : TreeModel :=
  { left := 3, roots := [1],
    children := fun x => if x = 1 then [0] else [],
    parent := fun x => if x = 0 then some 1 else none }

/-- The witness table set for C6. -/
def tsC6w : Tables :=
  { nodes := [ { flags := 1, name := "", population := 0, time := 0 },
               { flags := 0, name := "", population := 0, time := 1 } ],
    edges := [], sites := [], mutations := [] }

/-- Witness for C6: the run over treeC6w produces exactly one site at
position 3 with nodes and edges carried over, and the per-branch loop at
two mutations per branch appends the two chained rows with toggled
states. -/
theorem C6_witness :
    ((insert_branch_mutations [treeC6w] 2 9 tsC6w).map
      (fun t => (t.sites, t.nodes, t.edges)) =
      some ([({ position := 3, ancestral_state := "0" } : SiteRow)],
        tsC6w.nodes, tsC6w.edges)) ∧
    (∃ su2 mu2,
      emitBranch 5 7 2 0 (-1) none [] =
        (su2, mu2, ([] : List MutRow) ++ (List.range 2).map (fun (j : Nat) =>
          ({ site := 5
             node := 7
             derived_state := toString (((0 : Int) + (j : Int) + 1) % 2)
             parent := if j = 0 then (-1 : Int)
               else ((([] : List MutRow).length : Int)) + (j : Int) - 1 }
            : MutRow))) ∧
      ((2 : Nat) = 0 → su2 = 0 ∧ mu2 = none) ∧
      (0 < 2 → su2 = ((0 : Int) + ((2 : Nat) : Int)) % 2 ∧
        mu2 = some (((([] : List MutRow).length : Int)) + ((2 : Nat) : Int) - 1))) := by
  constructor
  · rcases h : insert_branch_mutations [treeC6w] 2 9 tsC6w with _ | t
    · have hS : (insert_branch_mutations [treeC6w] 2 9 tsC6w).isSome = true := by
        decide
      rw [h] at hS
      simp at hS
    · obtain ⟨hs, hn, he⟩ :=
        C6_insert_branch_mutations_amended.1 [treeC6w] 2 9 tsC6w t h
      rw [Option.map_some', hs, hn, he]
      rfl
  · exact C6_insert_branch_mutations_amended.2 5 7 2 0 (-1) none []

end TsUtil

namespace SimplifyAlgs

/-!
Embedding of simplify_work/simplify_algorithms.py.  Segment chains are
modelled as an arena of records indexed by arena index (the Python
Segment objects of the base engine are exactly the arena slots, recycled
through a free list), with prev and next stored as optional indices.
The balanced ordered map S (bintrees.AVLTree) is modelled as an
association list sorted by key, and the heapq heap as a list kept sorted
by key with ties kept in insertion order (the spec leaves the tie order
unspecified).  Operations that raise in Python (KeyError on missing map
keys, attribute access on a missing ancestor, exhaustion of the segment
arena) return none.
-/

/-- Arena segment record: a genomic interval [left, right) of ancestry
attributed to one node and one population, chained through optional
previous and next arena indices. -/
structure Seg where
  left : ℚ
  right : ℚ
  node : Nat
  population : Nat
  prev : Option Nat
  next : Option Nat
  deriving DecidableEq, Repr

/-- An edgeset record of the input tree sequence: parent node, child
nodes, genomic interval. -/
structure EdgeSet where
  left : ℚ
  right : ℚ
  parent : Nat
  children : List Nat
  deriving DecidableEq, Repr

/-- The part of the input tree sequence the Simplifier reads: its sample
ids, its sequence length and its edgesets. -/
structure TreeSeq where
  sampleIds : List Int
  sequence_length : ℚ
  edgesets : List EdgeSet
  deriving DecidableEq, Repr

/-- The mutable state of a Simplifier: sequence length m, full input
sample count n, the segment arena with its free list, the registered
chain-head indices of the single population (P), the breakpoint counter
map S, the ancestor index map A, the coalescence record log C, the
Fenwick value ledger L, the current time t and the next-fresh-node-id
counter w. -/
structure SimpState where
  m : ℚ
  n : Nat
  segs : Nat → Option Seg
  freeList : List Nat
  pop : List Nat
  S : List (ℚ × Int)
  A : Nat → Option Nat
  C : List (ℚ × ℚ × Nat × List Nat × ℚ)
  L : Nat → ℚ
  t : ℚ
  w : Nat

/-- Lookup in the sorted association list modelling the AVL map. -/
def avlGet (s : List (ℚ × Int)) (k : ℚ) : Option Int :=
  match s with
  | [] => none
  | (k2, v) :: rest => if k = k2 then some v else avlGet rest k

/-- Key membership in the AVL map model. -/
def avlContains (s : List (ℚ × Int)) (k : ℚ) : Bool :=
  (avlGet s k).isSome

/-- Insert or replace a key in the AVL map model, keeping keys sorted. -/
def avlSet (s : List (ℚ × Int)) (k : ℚ) (v : Int) : List (ℚ × Int) :=
  match s with
  | [] => [(k, v)]
  | (k2, v2) :: rest =>
    if k < k2 then (k, v) :: (k2, v2) :: rest
    else if k = k2 then (k, v) :: rest
    else (k2, v2) :: avlSet rest k v

/-- Greatest key less than or equal to k (bintrees floor_key); none models
the KeyError raised when no such key exists. -/
def avlFloorKey (s : List (ℚ × Int)) (k : ℚ) : Option ℚ :=
  match s with
  | [] => none
  | (k2, _) :: rest =>
    if k2 ≤ k then
      match avlFloorKey rest k with
      | some k3 => some k3
      | none => some k2
    else none

/-- Least key strictly greater than k (bintrees succ_key); none models the
KeyError raised when no such key exists. -/
def avlSuccKey (s : List (ℚ × Int)) (k : ℚ) : Option ℚ :=
  match s with
  | [] => none
  | (k2, _) :: rest => if k < k2 then some k2 else avlSuccKey rest k

/-- Modelled from the spec: alloc_segment of the base simulation module
(not present in the examined source) draws a free arena slot, fatal
(none) if the free list is empty, writes the given fields into it and
returns the new index. -/
def alloc_segment (st : SimpState) (left right : ℚ) (node population : Nat)
    (prev next : Option Nat) : Option (Nat × SimpState) :=
  match st.freeList with
  | [] => none
  | j :: rest =>
    let sg : Seg := { left := left, right := right, node := node,
                      population := population, prev := prev, next := next }
    some (j, { st with
               freeList := rest
               segs := fun i => if i = j then some sg else st.segs i })

/-- Modelled from the spec: free_segment of the base simulation module
returns a slot to the free list (the record for the slot keeps its stale
fields, as the recycled Python object does). -/
def free_segment (st : SimpState) (j : Nat) : SimpState :=
  { st with freeList := j :: st.freeList }

/-- Update the fields of the segment stored at arena index j. -/
def setSeg (st : SimpState) (j : Nat) (f : Seg → Seg) : SimpState :=
  { st with segs := fun i => if i = j then (st.segs i).map f else st.segs i }

/-- heapq.heappush on the heap model: insert keeping keys sorted, a new
entry going after existing entries with an equal key. -/
def heapPush (h : List (ℚ × Nat)) (e : ℚ × Nat) : List (ℚ × Nat) :=
  match h with
  | [] => [e]
  | x :: rest => if e.1 < x.1 then e :: x :: rest else x :: heapPush rest e

/-- The constructor loop of Simplifier.__init__: for k in
range(sample_size), if k is in the kept-sample set, allocate a
full-interval segment for node k, record its Fenwick value m - 1,
register it in the population and map k to it in A. -/
def init_loop (ts_m : ℚ) (samples : List Int) (ks : List Nat) (st : SimpState) :
    Option SimpState :=
  match ks with
  | [] => some st
  | k :: rest =>
    if (k : Int) ∈ samples then
      match alloc_segment st 0 ts_m k 0 none none with
      | none => none
      | some (x, st2) =>
        init_loop ts_m samples rest
          { st2 with L := fun i => if i = x then ts_m - 1 else st2.L i,
                     pop := st2.pop ++ [x],
                     A := fun u => if u = k then some x else st2.A u }
    else init_loop ts_m samples rest st

/-- Translation of Simplifier.__init__: n is the full sample count of the
input tree sequence, the arena holds max_segments slots indexed
1..max_segments, the constructor loop seeds the kept samples, then the
breakpoint counter map is seeded with S[0] = n and S[sequence_length] =
-1, the time with 0 and the next-fresh-node-id counter with n. -/
def Simplifier.init (ts : TreeSeq) (samples : List Int) (max_segments : Nat) :
    Option SimpState :=
  let n := ts.sampleIds.length
  let st0 : SimpState :=
    { m := ts.sequence_length, n := n,
      segs := fun _ => none,
      freeList := (List.range max_segments).map (fun j => j + 1),
      pop := [], S := [], A := fun _ => none, C := [],
      L := fun _ => 0, t := 0, w := 0 }
  match init_loop ts.sequence_length samples (List.range n) st0 with
  | none => none
  | some st1 =>
    some { st1 with
           S := avlSet (avlSet st1.S 0 (n : Int)) ts.sequence_length (-1),
           t := 0, w := n }

/-- Translation of Simplifier.get_ancestor: resolve A and then search the
population for the registered chain head with that arena index
(SearchablePopulation.from_index); none when the node carries no
ancestry. -/
def get_ancestor (st : SimpState) (u : Nat) : Option Nat :=
  match st.A u with
  | none => none
  | some idx => if idx ∈ st.pop then some idx else none

/-- The mutable locals of the per-child while loop of remove_ancestry:
the engine state, the cursor x, the last segment y kept before the edge
interval, the first segment z kept after it, the last removed segment w,
the first-output flag, the right-overhang flag of the last overlap
iteration, and the heap built so far. -/
structure RemState where
  st : SimpState
  x : Option Nat
  y : Option Nat
  z : Option Nat
  w : Option Nat
  output_head : Bool
  overhang_right : Bool
  H : List (ℚ × Nat)

/-- Translation of the while loop of Simplifier.remove_ancestry (while x
is not None and edge.right > x.left), walking one ancestor chain and
carving out the part overlapping [edge.left, edge.right); fuel bounds the
number of iterations (none on exhaustion). -/
def remove_child_loop (eleft eright : ℚ) (fuel : Nat) (rs : RemState) : Option RemState :=
  match fuel with
  | 0 => none
  | fuel + 1 =>
    match rs.x with
    | none => some rs
    | some xi =>
      match rs.st.segs xi with
      | none => none
      | some xs =>
        if eright > xs.left then
          if eleft ≤ xs.right ∧ eright ≥ xs.left then
            -- overlap
            let seg_right := xs.right
            let out_left := max eleft xs.left
            let out_right := min eright xs.right
            let overhang_left := xs.left < out_left
            let overhang_right := xs.right > out_right
            let step1 : Option (RemState × Nat) :=
              if overhang_left then
                -- x stays on the chain as the left residue; the overlap
                -- part becomes a newly allocated output segment
                let st2 := setSeg rs.st xi (fun s => { s with right := out_left })
                match alloc_segment st2 out_left out_right xs.node xs.population rs.w none with
                | none => none
                | some (wi, st3) => some ({ rs with st := st3, y := some xi }, wi)
              else
                -- remove x from the chain: x.prev := w; w := x; w.right := out_right
                let st2 := setSeg rs.st xi (fun s => { s with prev := rs.w, right := out_right })
                some ({ rs with st := st2 }, xi)
            match step1 with
            | none => none
            | some (rs1, wi) =>
              match (if rs1.output_head then
                      match (rs1.st.segs wi).map (fun s => s.left) with
                      | some wl => some { rs1 with
                                          H := heapPush rs1.H (wl, wi)
                                          output_head := false
                                          w := some wi }
                      | none => none
                     else some { rs1 with w := some wi }) with
              | none => none
              | some rs2 =>
              if overhang_right then
                -- allocate the right residue, link it in, and break
                match alloc_segment rs2.st out_right seg_right xs.node xs.population rs2.y xs.next with
                | none => none
                | some (zi, st4) =>
                  let st5 :=
                    match rs2.y with
                    | some yi => setSeg st4 yi (fun s => { s with next := some zi })
                    | none => st4
                  let st6 :=
                    match xs.next with
                    | some ni => setSeg st5 ni (fun s => { s with prev := some zi })
                    | none => st5
                  some { rs2 with st := st6, z := some zi, overhang_right := true }
              else
                remove_child_loop eleft eright fuel
                  { rs2 with x := xs.next, overhang_right := false }
          else
            -- no overlap: this segment may be the last one before the edge
            remove_child_loop eleft eright fuel { rs with y := some xi, x := xs.next }
        else
          some rs

/-- Translation of the per-child body of Simplifier.remove_ancestry: run
the chain walk for one child and do the wrap-up bookkeeping (restitch the
chain across the removed run and update or delete the child entry of the
Ancestor Index Map). -/
def remove_ancestry_child (eleft eright : ℚ) (fuel : Nat) (child : Nat)
    (acc : SimpState × List (ℚ × Nat)) : Option (SimpState × List (ℚ × Nat)) :=
  let (st, H) := acc
  match st.A child with
  | none => some (st, H)
  | some _ =>
    let x0 := get_ancestor st child
    match remove_child_loop eleft eright fuel
        { st := st, x := x0, y := none, z := none, w := none,
          output_head := true, overhang_right := false, H := H } with
    | none => none
    | some rs =>
      if rs.output_head then some (rs.st, rs.H)
      else
        let z1 := if rs.overhang_right then rs.z else rs.x
        let st1 :=
          match rs.y with
          | some yi => setSeg rs.st yi (fun s => { s with next := z1 })
          | none => rs.st
        let st2 :=
          match z1 with
          | some zi => setSeg st1 zi (fun s => { s with prev := rs.y })
          | none => st1
        let st3 :=
          match rs.y with
          | some _ => st2
          | none =>
            match z1 with
            | none => { st2 with A := fun u => if u = child then none else st2.A u }
            | some zi => { st2 with A := fun u => if u = child then some zi else st2.A u }
        some (st3, rs.H)

/-- Translation of Simplifier.remove_ancestry: push the parent chain head
first (if the parent carries ancestry), then carve out each child; returns
the updated state and the heap H of (left, segment) entries. -/
def remove_ancestry (edge : EdgeSet) (fuel : Nat) (st : SimpState) :
    Option (SimpState × List (ℚ × Nat)) :=
  let start : Option (List (ℚ × Nat)) :=
    match st.A edge.parent with
    | none => some []
    | some _ =>
      match get_ancestor st edge.parent with
      | none => none
      | some wi =>
        match (st.segs wi).map (fun s => s.left) with
        | none => none
        | some wl => some (heapPush [] (wl, wi))
  match start with
  | none => none
  | some H0 =>
    edge.children.foldlM (fun acc child => remove_ancestry_child edge.left edge.right fuel child acc)
      (st, H0)

/-- The while loop of the multi-member branch of merge_labeled_ancestors:
starting from r = l, while r is below r_max and the recorded count at r
differs from the batch size, decrement the count by batch size minus one
and move r to the successor key; returns the updated map and the final r.
Fuel bounds the iterations, none models a KeyError or exhaustion. -/
def s_walk (S : List (ℚ × Int)) (lenX : Int) (r_max r : ℚ) (fuel : Nat) :
    Option (List (ℚ × Int) × ℚ) :=
  match fuel with
  | 0 => none
  | fuel + 1 =>
    if r < r_max then
      match avlGet S r with
      | none => none
      | some v =>
        if v ≠ lenX then
          match avlSuccKey S r with
          | none => none
          | some r2 => s_walk (avlSet S r (v - (lenX - 1))) lenX r_max r2 fuel
        else some (S, r)
    else some (S, r)

/-- The member pass of the multi-member branch of merge_labeled_ancestors
(for x in X, lines 230-239): record each member node as a child of the
coalescence event, free members whose right edge equals r (requeueing
their chain successor), and requeue right-truncated members starting at
r. -/
def merge_children_pass (r : ℚ) (X : List Nat)
    (acc : SimpState × List (ℚ × Nat) × List Nat) :
    Option (SimpState × List (ℚ × Nat) × List Nat) :=
  X.foldlM (fun acc2 xi =>
    let (stA, HA, ch) := acc2
    match stA.segs xi with
    | none => none
    | some xs =>
      let ch2 := ch ++ [xs.node]
      if xs.right = r then
        let stB := free_segment stA xi
        match xs.next with
        | some yi =>
          match stB.segs yi with
          | none => none
          | some ys => some (stB, heapPush HA (ys.left, yi), ch2)
        | none => some (stB, HA, ch2)
      else if xs.right > r then
        let stB := setSeg stA xi (fun s => { s with left := r })
        some (stB, heapPush HA (r, xi), ch2)
      else some (stA, HA, ch2)) acc

/-- Result of one batch step of merge_labeled_ancestors: updated state,
updated heap, the alpha segment produced by this batch (none when a full
coalescence swallowed the interval) and the coalescence flag. -/
structure BatchOut where
  st : SimpState
  H : List (ℚ × Nat)
  alpha : Option Nat
  coal : Bool

/-- Ensure the breakpoint counter map has an explicit entry at key k,
inserting the value found by floor lookup when absent (lines 212-217 of
the source, for k = l and k = r_max). -/
def ensure_key (S : List (ℚ × Int)) (k : ℚ) : Option (List (ℚ × Int)) :=
  if avlContains S k then some S
  else
    match avlFloorKey S k with
    | none => none
    | some j =>
      match avlGet S j with
      | none => none
      | some vj => some (avlSet S k vj)

/-- Translation of the body of the outer while loop of
merge_labeled_ancestors once the batch X with minimum left coordinate l
and the bound r_max have been popped (lines 192-240): the single-member
branch splits or forwards the lone segment, the multi-member branch
allocates a fresh node id on the first coalescence, fixes the right bound
r through the breakpoint counter map, optionally allocates the merged
segment alpha, requeues or frees the members of X and appends the
coalescence record. -/
def merge_batch_step (st : SimpState) (H : List (ℚ × Nat)) (X : List Nat)
    (l r_max : ℚ) (pop_id : Nat) (coalescence : Bool) : Option BatchOut :=
  if X.length = 1 then
    match X.head? with
    | none => none
    | some xi =>
      match st.segs xi with
      | none => none
      | some xs =>
        let splitCase : Bool :=
          match H.head? with
          | some e => decide (e.1 < xs.right)
          | none => false
        if splitCase then
          match H.head? with
          | none => none
          | some e =>
            match alloc_segment st xs.left e.1 xs.node xs.population none none with
            | none => none
            | some (ai, st2) =>
              let st3 := setSeg st2 xi (fun s => { s with left := e.1 })
              some { st := st3, H := heapPush H (e.1, xi), alpha := some ai, coal := coalescence }
        else
          match xs.next with
          | some yi =>
            match st.segs yi with
            | none => none
            | some ys =>
              let st2 := setSeg st xi (fun s => { s with next := none })
              some { st := st2, H := heapPush H (ys.left, yi), alpha := some xi,
                     coal := coalescence }
          | none =>
            let st2 := setSeg st xi (fun s => { s with next := none })
            some { st := st2, H := H, alpha := some xi, coal := coalescence }
  else
    -- multi-member batch (coalescence)
    let w2 := if coalescence then st.w else st.w + 1
    let u := w2 - 1
    match ensure_key st.S l with
    | none => none
    | some Sa =>
      match ensure_key Sa r_max with
      | none => none
      | some Sb =>
        match avlGet Sb l with
        | none => none
        | some c =>
          let afterBound : Option (List (ℚ × Int) × ℚ × SimpState × Option Nat) :=
            if c = (X.length : Int) then
              let Sc := avlSet Sb l 0
              match avlSuccKey Sc l with
              | none => none
              | some r => some (Sc, r, { st with S := Sc, w := w2 }, none)
            else
              match s_walk Sb (X.length : Int) r_max l (Sb.length + 1) with
              | none => none
              | some (Sc, r) =>
                match alloc_segment { st with S := Sc, w := w2 } l r u pop_id none none with
                | none => none
                | some (ai, st2) => some (Sc, r, st2, some ai)
          match afterBound with
          | none => none
          | some (_, r, stMid, alpha) =>
            match merge_children_pass r X (stMid, H, []) with
            | none => none
            | some (stF, HF, children) =>
              some { st := { stF with C := stF.C ++ [(l, r, u, children, stF.t)] },
                     H := HF, alpha := alpha, coal := true }

/-- The key column of the breakpoint counter map model. -/
def keys (s : List (ℚ × Int)) : List ℚ :=
  s.map Prod.fst

/-- Well-formedness of the breakpoint counter map model: entries carry
strictly increasing keys. -/
def SSorted (s : List (ℚ × Int)) : Prop :=
  s.Pairwise (fun p q => p.1 < q.1)

theorem avlGet_eq_some_mem (s : List (ℚ × Int)) (k : ℚ) (v : Int)
    (h : avlGet s k = some v) : (k, v) ∈ s := by
  induction s with
  | nil => simp [avlGet] at h
  | cons e rest ih =>
    rw [avlGet] at h
    by_cases he : k = e.1
    · rw [if_pos he] at h
      have hkv : (k, v) = e := by
        rw [he, ← Option.some.inj h]
      rw [hkv]
      exact List.mem_cons_self e rest
    · rw [if_neg he] at h
      exact List.mem_cons_of_mem e (ih h)

theorem avlGet_isSome_iff (s : List (ℚ × Int)) (k : ℚ) :
    (avlGet s k).isSome ↔ k ∈ keys s := by
  induction s with
  | nil => simp [avlGet, keys]
  | cons e rest ih =>
    rw [avlGet]
    by_cases he : k = e.1
    · rw [if_pos he]
      simp [keys, he]
    · rw [if_neg he]
      simp only [keys, List.map_cons, List.mem_cons]
      rw [ih]
      simp [keys, he]

theorem mem_avlGet (s : List (ℚ × Int)) (k : ℚ) (v : Int) (hs : SSorted s)
    (h : (k, v) ∈ s) : avlGet s k = some v := by
  induction s with
  | nil => simp at h
  | cons e rest ih =>
    rw [avlGet]
    rcases List.mem_cons.mp h with he | hm
    · rw [if_pos (by rw [← he]), ← he]
    · have hne : k ≠ e.1 := by
        have := (List.pairwise_cons.mp hs).1 (k, v) hm
        intro hk
        rw [hk] at this
        exact absurd this (lt_irrefl _)
      rw [if_neg hne]
      exact ih (List.pairwise_cons.mp hs).2 hm

theorem avlSet_mem_super (s : List (ℚ × Int)) (k : ℚ) (v : Int) (q : ℚ × Int)
    (hq : q ∈ avlSet s k v) : q = (k, v) ∨ q ∈ s := by
  induction s with
  | nil =>
    rw [avlSet] at hq
    rcases List.mem_singleton.mp hq with h
    exact Or.inl h
  | cons e rest ih =>
    rw [avlSet] at hq
    by_cases h1 : k < e.1
    · rw [if_pos h1] at hq
      rcases List.mem_cons.mp hq with h | h
      · exact Or.inl h
      · exact Or.inr h
    · rw [if_neg h1] at hq
      by_cases h2 : k = e.1
      · rw [if_pos h2] at hq
        rcases List.mem_cons.mp hq with h | h
        · exact Or.inl h
        · exact Or.inr (List.mem_cons_of_mem e h)
      · rw [if_neg h2] at hq
        rcases List.mem_cons.mp hq with h | h
        · exact Or.inr (by rw [h]; exact List.mem_cons_self e rest)
        · rcases ih h with h3 | h3
          · exact Or.inl h3
          · exact Or.inr (List.mem_cons_of_mem e h3)

theorem avlSet_sorted (s : List (ℚ × Int)) (k : ℚ) (v : Int) (hs : SSorted s) :
    SSorted (avlSet s k v) := by
  induction s with
  | nil => simp [avlSet, SSorted]
  | cons e rest ih =>
    rw [avlSet]
    obtain ⟨hhead, htail⟩ := List.pairwise_cons.mp hs
    by_cases h1 : k < e.1
    · rw [if_pos h1]
      refine List.pairwise_cons.mpr ⟨?_, hs⟩
      intro q hq
      rcases List.mem_cons.mp hq with hqe | hqm
      · rw [hqe]
        exact h1
      · exact lt_trans h1 (hhead q hqm)
    · rw [if_neg h1]
      by_cases h2 : k = e.1
      · rw [if_pos h2]
        refine List.pairwise_cons.mpr ⟨?_, htail⟩
        intro q hq
        rw [h2]
        exact hhead q hq
      · rw [if_neg h2]
        refine List.pairwise_cons.mpr ⟨?_, ih htail⟩
        intro q hq
        rcases avlSet_mem_super rest k v q hq with hqk | hqm
        · rw [hqk]
          exact lt_of_le_of_ne (le_of_not_lt h1) (fun hh => h2 hh.symm)
        · exact hhead q hqm

theorem avlGet_avlSet (s : List (ℚ × Int)) (k k2 : ℚ) (v : Int) (hs : SSorted s) :
    avlGet (avlSet s k v) k2 = if k2 = k then some v else avlGet s k2 := by
  induction s with
  | nil => by_cases h : k2 = k <;> simp [avlSet, avlGet, h]
  | cons e rest ih =>
    obtain ⟨hhead, htail⟩ := List.pairwise_cons.mp hs
    rw [avlSet]
    by_cases h1 : k < e.1
    · rw [if_pos h1]
      by_cases h : k2 = k
      · simp [avlGet, h]
      · simp [avlGet, h]
    · rw [if_neg h1]
      by_cases h2 : k = e.1
      · rw [if_pos h2]
        by_cases h : k2 = k
        · simp [avlGet, h, h2]
        · have hne : ¬ k2 = e.1 := by rw [← h2]; exact h
          simp [avlGet, h, hne]
      · rw [if_neg h2]
        by_cases h : k2 = e.1
        · have hne : ¬ k2 = k := by
            intro hh
            rw [hh] at h
            exact h2 h
          rw [avlGet, if_pos h, if_neg hne, avlGet, if_pos h]
        · simp only [avlGet, if_neg h]
          exact ih htail

theorem keys_avlSet_mem (s : List (ℚ × Int)) (k : ℚ) (v : Int) (hs : SSorted s)
    (hk : k ∈ keys s) : keys (avlSet s k v) = keys s := by
  induction s with
  | nil => simp [keys] at hk
  | cons e rest ih =>
    obtain ⟨hhead, htail⟩ := List.pairwise_cons.mp hs
    have hk1 : k = e.1 ∨ k ∈ keys rest :=
      List.mem_cons.mp (show k ∈ e.1 :: keys rest from hk)
    rw [avlSet]
    by_cases h1 : k < e.1
    · exfalso
      rcases hk1 with hke | hkm
      · rw [hke] at h1
        exact absurd h1 (lt_irrefl _)
      · obtain ⟨q, hq, hqk⟩ := List.mem_map.mp hkm
        have := hhead q hq
        rw [hqk] at this
        exact absurd (lt_trans h1 this) (lt_irrefl _)
    · rw [if_neg h1]
      by_cases h2 : k = e.1
      · rw [if_pos h2]
        show (k, v).1 :: keys rest = e.1 :: keys rest
        rw [h2]
      · rw [if_neg h2]
        have hk2 : k ∈ keys rest := by
          rcases hk1 with hke | hkm
          · exact absurd hke h2
          · exact hkm
        show e.1 :: keys (avlSet rest k v) = e.1 :: keys rest
        rw [ih htail hk2]

theorem avlFloorKey_le (s : List (ℚ × Int)) (k j : ℚ) (h : avlFloorKey s k = some j) :
    j ∈ keys s ∧ j ≤ k := by
  induction s with
  | nil => simp [avlFloorKey] at h
  | cons e rest ih =>
    rw [avlFloorKey] at h
    by_cases he : e.1 ≤ k
    · rw [if_pos he] at h
      rcases hrec : avlFloorKey rest k with _ | j2
      · rw [hrec] at h
        have hj : e.1 = j := Option.some.inj h
        refine ⟨?_, by rw [← hj]; exact he⟩
        show j ∈ e.1 :: keys rest
        rw [hj]
        exact List.mem_cons_self j (keys rest)
      · rw [hrec] at h
        have hj : j2 = j := Option.some.inj h
        subst hj
        obtain ⟨hm, hle⟩ := ih hrec
        exact ⟨List.mem_cons_of_mem e.1 hm, hle⟩
    · rw [if_neg he] at h
      exact absurd h (by simp)

theorem avlFloorKey_isSome (s : List (ℚ × Int)) (k : ℚ) (p : ℚ × Int) (hs : SSorted s)
    (hp : p ∈ s) (hle : p.1 ≤ k) : (avlFloorKey s k).isSome := by
  induction s with
  | nil => simp at hp
  | cons e rest ih =>
    obtain ⟨hhead, htail⟩ := List.pairwise_cons.mp hs
    rw [avlFloorKey]
    have he : e.1 ≤ k := by
      rcases List.mem_cons.mp hp with hpe | hpm
      · rw [← hpe]
        exact hle
      · exact le_of_lt (lt_of_lt_of_le (hhead p hpm) hle)
    rw [if_pos he]
    rcases avlFloorKey rest k with _ | j <;> simp

theorem avlSuccKey_spec (s : List (ℚ × Int)) (k r : ℚ) (hs : SSorted s)
    (h : avlSuccKey s k = some r) :
    r ∈ keys s ∧ k < r ∧ ∀ q ∈ keys s, k < q → r ≤ q := by
  induction s with
  | nil => simp [avlSuccKey] at h
  | cons e rest ih =>
    obtain ⟨hhead, htail⟩ := List.pairwise_cons.mp hs
    rw [avlSuccKey] at h
    by_cases he : k < e.1
    · rw [if_pos he] at h
      have hr : e.1 = r := Option.some.inj h
      refine ⟨?_, by rw [← hr]; exact he, ?_⟩
      · show r ∈ e.1 :: keys rest
        rw [hr]
        exact List.mem_cons_self r (keys rest)
      · intro q hq _
        rcases List.mem_cons.mp (show q ∈ e.1 :: keys rest from hq) with hqe | hqm
        · rw [← hr, hqe]
        · obtain ⟨p, hp, hpq⟩ := List.mem_map.mp hqm
          rw [← hr, ← hpq]
          exact le_of_lt (hhead p hp)
    · rw [if_neg he] at h
      obtain ⟨hm, hlt, hmin⟩ := ih htail h
      refine ⟨List.mem_cons_of_mem e.1 hm, hlt, ?_⟩
      intro q hq hkq
      rcases List.mem_cons.mp (show q ∈ e.1 :: keys rest from hq) with hqe | hqm
      · exfalso
        rw [hqe] at hkq
        exact he hkq
      · exact hmin q hqm hkq

theorem avlSuccKey_isSome (s : List (ℚ × Int)) (k : ℚ) (p : ℚ × Int)
    (hp : p ∈ s) (hk : k < p.1) : (avlSuccKey s k).isSome := by
  induction s with
  | nil => simp at hp
  | cons e rest ih =>
    rw [avlSuccKey]
    by_cases he : k < e.1
    · rw [if_pos he]
      simp
    · rw [if_neg he]
      rcases List.mem_cons.mp hp with hpe | hpm
      · exfalso
        exact he (by rw [← hpe]; exact hk)
      · exact ih hpm

theorem avlSet_mem_of_mem (s : List (ℚ × Int)) (k : ℚ) (v : Int) (q : ℚ × Int)
    (hq : q ∈ s) (hne : q.1 ≠ k) : q ∈ avlSet s k v := by
  induction s with
  | nil => simp at hq
  | cons e rest ih =>
    rw [avlSet]
    by_cases h1 : k < e.1
    · rw [if_pos h1]
      exact List.mem_cons_of_mem _ hq
    · rw [if_neg h1]
      by_cases h2 : k = e.1
      · rw [if_pos h2]
        rcases List.mem_cons.mp hq with hqe | hqm
        · exfalso
          rw [hqe, ← h2] at hne
          exact hne rfl
        · exact List.mem_cons_of_mem _ hqm
      · rw [if_neg h2]
        rcases List.mem_cons.mp hq with hqe | hqm
        · rw [hqe]
          exact List.mem_cons_self e _
        · exact List.mem_cons_of_mem e (ih hqm)

theorem countP_lt_of_imp {α : Type} (l : List α) (p q : α → Bool)
    (hpq : ∀ x ∈ l, q x = true → p x = true) (x : α) (hx : x ∈ l)
    (hpx : p x = true) (hqx : ¬ q x = true) : l.countP q < l.countP p := by
  induction l with
  | nil => simp at hx
  | cons a tl ih =>
    rcases List.mem_cons.mp hx with hxa | hxm
    · have hqa : q a = false := by
        rw [← hxa]
        exact Bool.not_eq_true _ |>.mp hqx
      have hpa : p a = true := by rw [← hxa]; exact hpx
      rw [List.countP_cons, List.countP_cons, hqa, hpa, if_pos rfl,
        if_neg Bool.false_ne_true]
      have hle : tl.countP q ≤ tl.countP p :=
        List.countP_mono_left (fun y hy => hpq y (List.mem_cons_of_mem a hy))
      omega
    · have hstrict := ih (fun y hy => hpq y (List.mem_cons_of_mem a hy)) hxm
      rw [List.countP_cons, List.countP_cons]
      by_cases hqa : q a = true
      · rw [hqa, hpq a (List.mem_cons_self a tl) hqa, if_pos rfl]
        omega
      · have hqa2 : q a = false := Bool.not_eq_true _ |>.mp hqa
        rw [hqa2, if_neg Bool.false_ne_true]
        by_cases hpa : p a = true
        · rw [hpa, if_pos rfl]
          omega
        · rw [Bool.not_eq_true _ |>.mp hpa, if_neg Bool.false_ne_true]
          omega

theorem ensure_key_spec (S : List (ℚ × Int)) (k : ℚ) (hs : SSorted S)
    (hfl : ∃ p ∈ S, p.1 ≤ k) :
    ∃ S2, ensure_key S k = some S2 ∧ SSorted S2 ∧ k ∈ keys S2 ∧
      (∀ k2, k2 ≠ k → avlGet S2 k2 = avlGet S k2) ∧
      (∀ q ∈ keys S, q ∈ keys S2) ∧
      (∀ q ∈ keys S2, q = k ∨ q ∈ keys S) := by
  by_cases hc : avlContains S k = true
  · have hek : ensure_key S k = some S := by
      unfold ensure_key
      rw [if_pos hc]
    refine ⟨S, hek, hs, ?_, fun _ _ => rfl, fun q hq => hq, fun q hq => Or.inr hq⟩
    rw [avlContains] at hc
    exact (avlGet_isSome_iff S k).mp hc
  · obtain ⟨p, hp, hpk⟩ := hfl
    have hfs := avlFloorKey_isSome S k p hs hp hpk
    rcases hfj : avlFloorKey S k with _ | j
    · rw [hfj] at hfs
      simp at hfs
    · obtain ⟨hjm, _⟩ := avlFloorKey_le S k j hfj
      have hjs : (avlGet S j).isSome := (avlGet_isSome_iff S j).mpr hjm
      rcases hgj : avlGet S j with _ | vj
      · rw [hgj] at hjs
        simp at hjs
      · have hek : ensure_key S k = some (avlSet S k vj) := by
          unfold ensure_key
          rw [if_neg hc, hfj]
          simp [hgj]
        refine ⟨avlSet S k vj, hek, avlSet_sorted S k vj hs, ?_, ?_, ?_, ?_⟩
        · rw [← avlGet_isSome_iff, avlGet_avlSet S k k vj hs, if_pos rfl]
          rfl
        · intro k2 hk2
          rw [avlGet_avlSet S k k2 vj hs, if_neg hk2]
        · intro q hq
          by_cases hqk : q = k
          · rw [← avlGet_isSome_iff, avlGet_avlSet S k q vj hs, if_pos hqk]
            rfl
          · rw [← avlGet_isSome_iff, avlGet_avlSet S k q vj hs, if_neg hqk,
              avlGet_isSome_iff]
            exact hq
        · intro q hq
          by_cases hqk : q = k
          · exact Or.inl hqk
          · rw [← avlGet_isSome_iff, avlGet_avlSet S k q vj hs, if_neg hqk,
              avlGet_isSome_iff] at hq
            exact Or.inr hq

theorem s_walk_spec (fuel : Nat) (S : List (ℚ × Int)) (lenX : Int) (r_max r0 : ℚ)
    (hs : SSorted S) (hr0 : r0 ∈ keys S) (hrmax : r_max ∈ keys S) (hle : r0 ≤ r_max)
    (hfuel : (keys S).countP (fun q => decide (r0 < q ∧ q ≤ r_max)) < fuel) :
    ∃ S2 r, s_walk S lenX r_max r0 fuel = some (S2, r) ∧
      r ∈ keys S ∧ r0 ≤ r ∧ r ≤ r_max ∧
      (r = r_max ∨ avlGet S r = some lenX) ∧
      (∀ k v, (k, v) ∈ S → r0 ≤ k → k < r → v ≠ lenX) ∧
      SSorted S2 ∧ keys S2 = keys S ∧
      (∀ k, avlGet S2 k =
        (avlGet S k).map (fun v => if r0 ≤ k ∧ k < r then v - (lenX - 1) else v)) := by
  induction fuel generalizing S r0 with
  | zero => exact absurd hfuel (Nat.not_lt_zero _)
  | succ f ih =>
    by_cases hrm : r0 < r_max
    · have hsome : (avlGet S r0).isSome := (avlGet_isSome_iff S r0).mpr hr0
      rcases hv : avlGet S r0 with _ | v
      · rw [hv] at hsome
        simp at hsome
      · by_cases hveq : v = lenX
        · have hstep : s_walk S lenX r_max r0 (f + 1) = some (S, r0) := by
            rw [s_walk, if_pos hrm, hv]
            simp [hveq]
          refine ⟨S, r0, hstep, hr0, le_refl _, hle, ?_, ?_, hs, rfl, ?_⟩
          · right
            rw [hv, hveq]
          · intro k v2 _ hk1 hk2
            exact absurd (lt_of_le_of_lt hk1 hk2) (lt_irrefl _)
          · intro k
            cases hgk : avlGet S k with
            | none => rfl
            | some w =>
              simp only [Option.map_some']
              rw [if_neg (fun hand => absurd (lt_of_le_of_lt hand.1 hand.2) (lt_irrefl _))]
        · obtain ⟨vmax, hvmaxmem⟩ : ∃ vm, (r_max, vm) ∈ S := by
            obtain ⟨p, hp, hpk⟩ := List.mem_map.mp hrmax
            refine ⟨p.2, ?_⟩
            have hpe : (r_max, p.2) = p := by
              rw [← hpk]
            rw [hpe]
            exact hp
          have hsucc : (avlSuccKey S r0).isSome :=
            avlSuccKey_isSome S r0 (r_max, vmax) hvmaxmem hrm
          rcases hr2 : avlSuccKey S r0 with _ | r2
          · rw [hr2] at hsucc
            simp at hsucc
          · obtain ⟨hr2mem, hr2gt, hr2min⟩ := avlSuccKey_spec S r0 r2 hs hr2
            have hstep : s_walk S lenX r_max r0 (f + 1) =
                s_walk (avlSet S r0 (v - (lenX - 1))) lenX r_max r2 f := by
              rw [s_walk, if_pos hrm, hv]
              simp [hveq, hr2]
            have hs2a : SSorted (avlSet S r0 (v - (lenX - 1))) :=
              avlSet_sorted S r0 _ hs
            have hkeys2a : keys (avlSet S r0 (v - (lenX - 1))) = keys S :=
              keys_avlSet_mem S r0 _ hs hr0
            have hr2max : r2 ≤ r_max := hr2min r_max hrmax hrm
            have hfuel2 : (keys (avlSet S r0 (v - (lenX - 1)))).countP
                (fun q => decide (r2 < q ∧ q ≤ r_max)) < f := by
              rw [hkeys2a]
              have hlt : (keys S).countP (fun q => decide (r2 < q ∧ q ≤ r_max)) <
                  (keys S).countP (fun q => decide (r0 < q ∧ q ≤ r_max)) := by
                apply countP_lt_of_imp (keys S) _ _ ?_ r2 hr2mem ?_ ?_
                · intro x _ hx
                  have hx2 := of_decide_eq_true hx
                  exact decide_eq_true ⟨lt_trans hr2gt hx2.1, hx2.2⟩
                · exact decide_eq_true ⟨hr2gt, hr2max⟩
                · intro hcon
                  exact absurd (of_decide_eq_true hcon).1 (lt_irrefl r2)
              omega
            obtain ⟨S2, r, hwalk, hrks, hrle2, hrmaxle, hstop, hnov, hs2, hkeys2, hget2⟩ :=
              ih (avlSet S r0 (v - (lenX - 1))) r2 hs2a (by rw [hkeys2a]; exact hr2mem)
                (by rw [hkeys2a]; exact hrmax) hr2max hfuel2
            have hget2a : ∀ k, avlGet (avlSet S r0 (v - (lenX - 1))) k =
                if k = r0 then some (v - (lenX - 1)) else avlGet S k :=
              fun k => avlGet_avlSet S r0 k _ hs
            refine ⟨S2, r, by rw [hstep]; exact hwalk, by rw [hkeys2a] at hrks; exact hrks,
              le_of_lt (lt_of_lt_of_le hr2gt hrle2), hrmaxle, ?_, ?_, hs2, ?_, ?_⟩
            · rcases hstop with hrm2 | hget
              · exact Or.inl hrm2
              · right
                rw [hget2a r] at hget
                rw [if_neg ?_] at hget
                · exact hget
                · intro hcon
                  rw [hcon] at hrle2
                  exact absurd (lt_of_lt_of_le hr2gt hrle2) (lt_irrefl _)
            · intro k v2 hkv hk0 hkr
              by_cases hkr0 : k = r0
              · have h5 : avlGet S k = some v2 := mem_avlGet S k v2 hs hkv
                rw [hkr0, hv] at h5
                rw [← Option.some.inj h5]
                exact hveq
              · have hkmem : k ∈ keys S := by
                  rw [← avlGet_isSome_iff, mem_avlGet S k v2 hs hkv]
                  rfl
                have hk2le : r2 ≤ k := hr2min k hkmem (lt_of_le_of_ne hk0 (Ne.symm hkr0))
                have hkv2 : (k, v2) ∈ avlSet S r0 (v - (lenX - 1)) :=
                  avlSet_mem_of_mem S r0 _ (k, v2) hkv hkr0
                exact hnov k v2 hkv2 hk2le hkr
            · rw [hkeys2, hkeys2a]
            · intro k
              rw [hget2 k, hget2a k]
              by_cases hk0 : k = r0
              · rw [if_pos hk0, hk0, hv]
                simp only [Option.map_some']
                rw [if_neg (fun hand => absurd (lt_of_lt_of_le hr2gt hand.1) (lt_irrefl _)),
                  if_pos ⟨le_refl r0, lt_of_lt_of_le hr2gt hrle2⟩]
              · rw [if_neg hk0]
                cases hgk : avlGet S k with
                | none => rfl
                | some w =>
                  simp only [Option.map_some']
                  by_cases hcond : r0 ≤ k ∧ k < r
                  · have hkmem : k ∈ keys S := by
                      rw [← avlGet_isSome_iff, hgk]
                      rfl
                    have : r2 ≤ k := hr2min k hkmem (lt_of_le_of_ne hcond.1 (Ne.symm hk0))
                    rw [if_pos ⟨this, hcond.2⟩, if_pos hcond]
                  · rw [if_neg hcond, if_neg (fun hand =>
                      hcond ⟨le_of_lt (lt_of_lt_of_le hr2gt hand.1), hand.2⟩)]
    · have hr0max : r0 = r_max := le_antisymm hle (le_of_not_lt hrm)
      have hstep : s_walk S lenX r_max r0 (f + 1) = some (S, r0) := by
        rw [s_walk, if_neg hrm]
      refine ⟨S, r0, hstep, hr0, le_refl _, hle, Or.inl hr0max, ?_, hs, rfl, ?_⟩
      · intro k v2 _ hk1 hk2
        exact absurd (lt_of_le_of_lt hk1 hk2) (lt_irrefl _)
      · intro k
        cases hgk : avlGet S k with
        | none => rfl
        | some w =>
          simp only [Option.map_some']
          rw [if_neg (fun hand => absurd (lt_of_le_of_lt hand.1 hand.2) (lt_irrefl _))]

theorem filterMap_congr_on {α β : Type} (l : List α) (f g : α → Option β)
    (h : ∀ a ∈ l, f a = g a) : l.filterMap f = l.filterMap g := by
  induction l with
  | nil => rfl
  | cons a tl ih =>
    rw [List.filterMap_cons, List.filterMap_cons,
      h a (List.mem_cons_self a tl),
      ih (fun b hb => h b (List.mem_cons_of_mem a hb))]

theorem avlSuccKey_eq_of_keys (s1 s2 : List (ℚ × Int)) (k : ℚ)
    (h : keys s1 = keys s2) : avlSuccKey s1 k = avlSuccKey s2 k := by
  induction s1 generalizing s2 with
  | nil =>
    cases s2 with
    | nil => rfl
    | cons e t => simp [keys] at h
  | cons e t ih =>
    cases s2 with
    | nil => simp [keys] at h
    | cons e2 t2 =>
      have h1 : e.1 = e2.1 ∧ keys t = keys t2 := by
        constructor
        · exact (List.cons.injEq _ _ _ _ ▸ (show e.1 :: keys t = e2.1 :: keys t2 from h)).1
        · exact (List.cons.injEq _ _ _ _ ▸ (show e.1 :: keys t = e2.1 :: keys t2 from h)).2
      rw [avlSuccKey, avlSuccKey, h1.1, ih t2 h1.2]

theorem setSeg_isSome (st : SimpState) (i : Nat) (f : Seg → Seg) (j : Nat) :
    ((setSeg st i f).segs j).isSome = (st.segs j).isSome := by
  unfold setSeg
  by_cases h : j = i
  · simp [h]
  · simp [h]

theorem merge_children_pass_spec (r : ℚ) (X : List Nat) :
    ∀ (stA : SimpState) (HA : List (ℚ × Nat)) (ch : List Nat),
    (∀ i ∈ X, (stA.segs i).isSome) →
    (∀ i ∈ X, ∀ s, stA.segs i = some s → ∀ yi, s.next = some yi → (stA.segs yi).isSome) →
    X.Nodup →
    ∃ stF HF, merge_children_pass r X (stA, HA, ch) = some (stF, HF,
        ch ++ X.filterMap (fun i => (stA.segs i).map (fun s => s.node))) ∧
      stF.C = stA.C ∧ stF.t = stA.t ∧ stF.w = stA.w ∧ stF.S = stA.S ∧
      stF.A = stA.A ∧ stF.m = stA.m ∧ stF.n = stA.n ∧ stF.pop = stA.pop ∧
      (∀ j, j ∉ X → stF.segs j = stA.segs j) := by
  induction X with
  | nil =>
    intro stA HA ch _ _ _
    exact ⟨stA, HA, by simp [merge_children_pass], rfl, rfl, rfl, rfl, rfl, rfl, rfl, rfl,
      fun j _ => rfl⟩
  | cons i rest ih =>
    intro stA HA ch hsegs hnext hnd
    have hiS : (stA.segs i).isSome := hsegs i (List.mem_cons_self i rest)
    have hirest : i ∉ rest := (List.nodup_cons.mp hnd).1
    have hndr : rest.Nodup := (List.nodup_cons.mp hnd).2
    rcases hxs : stA.segs i with _ | xs
    · rw [hxs] at hiS
      simp at hiS
    · have hfm : List.filterMap (fun i2 => (stA.segs i2).map (fun s => s.node)) (i :: rest) =
          xs.node :: List.filterMap (fun i2 => (stA.segs i2).map (fun s => s.node)) rest := by
        rw [List.filterMap_cons, hxs]
        rfl
      by_cases h1 : xs.right = r
      · rcases hn : xs.next with _ | yi
        · -- freed, no successor to push
          have hred : merge_children_pass r (i :: rest) (stA, HA, ch) =
              merge_children_pass r rest (free_segment stA i, HA, ch ++ [xs.node]) := by
            rw [merge_children_pass, merge_children_pass, List.foldlM_cons]
            simp [hxs, hn, if_pos h1]
          obtain ⟨stF, HF, hrun, hC, ht, hw, hS, hA, hm, hn2, hpop, hsegsF⟩ :=
            ih (free_segment stA i) HA (ch ++ [xs.node])
              (fun j hj => hsegs j (List.mem_cons_of_mem i hj))
              (fun j hj => hnext j (List.mem_cons_of_mem i hj)) hndr
          refine ⟨stF, HF, ?_, hC, ht, hw, hS, hA, hm, hn2, hpop, ?_⟩
          · rw [hred, hrun, hfm, List.append_assoc]
            rfl
          · intro j hj
            rw [hsegsF j (fun hm2 => hj (List.mem_cons_of_mem i hm2))]
            rfl
        · -- freed, push the chain successor
          have hyiS : ((free_segment stA i).segs yi).isSome :=
            hnext i (List.mem_cons_self i rest) xs hxs yi hn
          rcases hys : (free_segment stA i).segs yi with _ | ys
          · rw [hys] at hyiS
            simp at hyiS
          · have hred : merge_children_pass r (i :: rest) (stA, HA, ch) =
                merge_children_pass r rest
                  (free_segment stA i, heapPush HA (ys.left, yi), ch ++ [xs.node]) := by
              rw [merge_children_pass, merge_children_pass, List.foldlM_cons]
              simp [hxs, hn, if_pos h1, hys]
            obtain ⟨stF, HF, hrun, hC, ht, hw, hS, hA, hm, hn2, hpop, hsegsF⟩ :=
              ih (free_segment stA i) (heapPush HA (ys.left, yi)) (ch ++ [xs.node])
                (fun j hj => hsegs j (List.mem_cons_of_mem i hj))
                (fun j hj => hnext j (List.mem_cons_of_mem i hj)) hndr
            refine ⟨stF, HF, ?_, hC, ht, hw, hS, hA, hm, hn2, hpop, ?_⟩
            · rw [hred, hrun, hfm, List.append_assoc]
              rfl
            · intro j hj
              rw [hsegsF j (fun hm2 => hj (List.mem_cons_of_mem i hm2))]
              rfl
      · by_cases h2 : xs.right > r
        · -- truncated and requeued
          have hred : merge_children_pass r (i :: rest) (stA, HA, ch) =
              merge_children_pass r rest
                (setSeg stA i (fun s => { s with left := r }), heapPush HA (r, i),
                  ch ++ [xs.node]) := by
            rw [merge_children_pass, merge_children_pass, List.foldlM_cons]
            simp [hxs, if_neg h1, if_pos h2]
          have hother : ∀ j, j ≠ i →
              (setSeg stA i (fun s => { s with left := r })).segs j = stA.segs j := by
            intro j hj
            unfold setSeg
            simp [hj]
          obtain ⟨stF, HF, hrun, hC, ht, hw, hS, hA, hm, hn2, hpop, hsegsF⟩ :=
            ih (setSeg stA i (fun s => { s with left := r })) (heapPush HA (r, i))
              (ch ++ [xs.node])
              (fun j hj => by
                rw [setSeg_isSome]
                exact hsegs j (List.mem_cons_of_mem i hj))
              (fun j hj s hjs yi hyi => by
                rw [setSeg_isSome]
                have hjne : j ≠ i := fun hji => hirest (hji ▸ hj)
                rw [hother j hjne] at hjs
                exact hnext j (List.mem_cons_of_mem i hj) s hjs yi hyi) hndr
          refine ⟨stF, HF, ?_, hC, ht, hw, hS, hA, hm, hn2, hpop, ?_⟩
          · rw [hred, hrun, hfm, List.append_assoc]
            have : List.filterMap (fun i2 =>
                ((setSeg stA i (fun s => { s with left := r })).segs i2).map
                  (fun s => s.node)) rest =
                List.filterMap (fun i2 => (stA.segs i2).map (fun s => s.node)) rest := by
              apply filterMap_congr_on
              intro j hj
              rw [hother j (fun hji => hirest (hji ▸ hj))]
            rw [this]
            rfl
          · intro j hj
            have hjne : j ≠ i := fun hji => hj (hji ▸ List.mem_cons_self i rest)
            rw [hsegsF j (fun hm2 => hj (List.mem_cons_of_mem i hm2)), hother j hjne]
        · -- untouched member
          have hred : merge_children_pass r (i :: rest) (stA, HA, ch) =
              merge_children_pass r rest (stA, HA, ch ++ [xs.node]) := by
            rw [merge_children_pass, merge_children_pass, List.foldlM_cons]
            simp [hxs, if_neg h1, if_neg h2]
          obtain ⟨stF, HF, hrun, hC, ht, hw, hS, hA, hm, hn2, hpop, hsegsF⟩ :=
            ih stA HA (ch ++ [xs.node])
              (fun j hj => hsegs j (List.mem_cons_of_mem i hj))
              (fun j hj => hnext j (List.mem_cons_of_mem i hj)) hndr
          refine ⟨stF, HF, ?_, hC, ht, hw, hS, hA, hm, hn2, hpop, ?_⟩
          · rw [hred, hrun, hfm, List.append_assoc]
            rfl
          · intro j hj
            exact hsegsF j (fun hm2 => hj (List.mem_cons_of_mem i hm2))

/-- The input-side node labels of the members of a batch, in batch order:
these become the children list of the coalescence record. -/
def segNodes (st : SimpState) (X : List Nat) : List Nat :=
  X.filterMap (fun i => (st.segs i).map (fun s => s.node))

theorem merge_batch_multi_spec (st : SimpState) (H : List (ℚ × Nat)) (X : List Nat)
    (l r_max : ℚ) (pid : Nat) (coal : Bool)
    (hlen : 2 ≤ X.length)
    (hs : SSorted st.S)
    (hfl : ∃ p ∈ st.S, p.1 ≤ l)
    (hlr : l < r_max)
    (hfree : st.freeList ≠ [])
    (hsegs : ∀ i ∈ X, (st.segs i).isSome)
    (hnext : ∀ i ∈ X, ∀ s, st.segs i = some s → ∀ yi, s.next = some yi →
      (st.segs yi).isSome)
    (hnd : X.Nodup)
    (hdisj : ∀ i ∈ X, i ∉ st.freeList) :
    ∃ Sa Sb c out r,
      ensure_key st.S l = some Sa ∧
      ensure_key Sa r_max = some Sb ∧
      avlGet Sb l = some c ∧
      merge_batch_step st H X l r_max pid coal = some out ∧
      out.coal = true ∧
      out.st.w = (if coal then st.w else st.w + 1) ∧
      out.st.t = st.t ∧
      out.st.C = st.C ++ [(l, r, (if coal then st.w else st.w + 1) - 1,
        segNodes st X, st.t)] ∧
      ((c = (X.length : Int) ∧ out.alpha = none ∧ avlSuccKey Sb l = some r ∧
          out.st.S = avlSet Sb l 0) ∨
       (c ≠ (X.length : Int) ∧
          (∃ a, out.alpha = some a ∧
            out.st.segs a = some { left := l
                                   right := r
                                   node := (if coal then st.w else st.w + 1) - 1
                                   population := pid
                                   prev := none
                                   next := none }) ∧
          r ∈ keys Sb ∧ l < r ∧ r ≤ r_max ∧
          (r = r_max ∨ avlGet Sb r = some (X.length : Int)) ∧
          (∀ k v, (k, v) ∈ Sb → l ≤ k → k < r → v ≠ (X.length : Int)) ∧
          (∀ k, avlGet out.st.S k =
            (avlGet Sb k).map (fun v =>
              if l ≤ k ∧ k < r then v - ((X.length : Int) - 1) else v)))) := by
  have hX1 : ¬ (X.length = 1) := by omega
  obtain ⟨Sa, hSaEq, hSaS, hlSa, hgetA, hsubA, hsupA⟩ := ensure_key_spec st.S l hs hfl
  have hflb : ∃ p ∈ Sa, p.1 ≤ r_max := by
    obtain ⟨p, hp, hp1⟩ := List.mem_map.mp hlSa
    exact ⟨p, hp, by rw [hp1]; exact le_of_lt hlr⟩
  obtain ⟨Sb, hSbEq, hSbS, hrmaxSb, hgetB, hsubB, hsupB⟩ := ensure_key_spec Sa r_max hSaS hflb
  have hlSb : l ∈ keys Sb := hsubB l hlSa
  have hcS : (avlGet Sb l).isSome := (avlGet_isSome_iff Sb l).mpr hlSb
  rcases hcEq : avlGet Sb l with _ | c
  · rw [hcEq] at hcS
    simp at hcS
  · by_cases hcase : c = (X.length : Int)
    · -- full collapse at l: no alpha segment
      have hkeysSc : keys (avlSet Sb l 0) = keys Sb := keys_avlSet_mem Sb l 0 hSbS hlSb
      obtain ⟨vm, hvmMem⟩ : ∃ vm, (r_max, vm) ∈ avlSet Sb l 0 := by
        have : r_max ∈ keys (avlSet Sb l 0) := by
          rw [hkeysSc]
          exact hrmaxSb
        obtain ⟨p, hp, hp1⟩ := List.mem_map.mp this
        refine ⟨p.2, ?_⟩
        have hpe : (r_max, p.2) = p := by rw [← hp1]
        rw [hpe]
        exact hp
      have hsuccS : (avlSuccKey (avlSet Sb l 0) l).isSome :=
        avlSuccKey_isSome (avlSet Sb l 0) l (r_max, vm) hvmMem hlr
      rcases hsucc : avlSuccKey (avlSet Sb l 0) l with _ | r
      · rw [hsucc] at hsuccS
        simp at hsuccS
      · have hsuccSb : avlSuccKey Sb l = some r := by
          rw [← avlSuccKey_eq_of_keys (avlSet Sb l 0) Sb l hkeysSc]
          exact hsucc
        obtain ⟨stF, HF, hrunF, hC, ht, hw, hS, hA, hm, hn2, hpop, hsegsF⟩ :=
          merge_children_pass_spec r X { st with
              S := avlSet Sb l 0
              w := if coal then st.w else st.w + 1 } H [] hsegs hnext hnd
        have hrunF2 : merge_children_pass r X ({ st with
              S := avlSet Sb l 0
              w := if coal then st.w else st.w + 1 }, H, []) =
            some (stF, HF, segNodes st X) := hrunF
        have hrun : merge_batch_step st H X l r_max pid coal =
            some { st := { stF with C := stF.C ++
                     [(l, r, (if coal then st.w else st.w + 1) - 1, segNodes st X, stF.t)] },
                   H := HF, alpha := none, coal := true } := by
          unfold merge_batch_step
          rw [if_neg hX1]
          simp only [hSaEq, hSbEq, hcEq, hcase, eq_self_iff_true, if_true, hsucc, hrunF2]
        refine ⟨Sa, Sb, c, _, r, hSaEq, hSbEq, hcEq, hrun, rfl, ?_, ?_, ?_, Or.inl
          ⟨hcase, rfl, hsuccSb, ?_⟩⟩
        · exact hw
        · rw [ht]
        · rw [hC, ht]
        · exact hS
    · -- walk forward and allocate the merged segment alpha
      obtain ⟨Sc2, r, hwalk, hrKeys, hlrle, hrle, hstop, hnov, hScS, hScKeys, hScGet⟩ :=
        s_walk_spec (Sb.length + 1) Sb (X.length : Int) r_max l hSbS hlSb hrmaxSb
          (le_of_lt hlr)
          (Nat.lt_succ_of_le (by
            have := List.countP_le_length
              (l := keys Sb) (p := fun q => decide (l < q ∧ q ≤ r_max))
            simpa [keys] using this))
      have hlneq : l < r := by
        rcases eq_or_lt_of_le hlrle with heq | hlt
        · exfalso
          rcases hstop with hrm | hget
          · rw [← heq] at hrm
            rw [hrm] at hlr
            exact absurd hlr (lt_irrefl _)
          · rw [← heq] at hget
            rw [hcEq] at hget
            exact hcase (Option.some.inj hget)
        · exact hlt
      rcases hfL : st.freeList with _ | ⟨j, tl⟩
      · exact absurd hfL hfree
      · have hjX : j ∉ X := by
          intro hjmem
          exact hdisj j hjmem (by rw [hfL]; exact List.mem_cons_self j tl)
        have halloc : alloc_segment { st with
            S := Sc2
            w := if coal then st.w else st.w + 1 } l r
            ((if coal then st.w else st.w + 1) - 1) pid none none =
            some (j, { { st with
              S := Sc2
              w := if coal then st.w else st.w + 1 } with
              freeList := tl
              segs := fun i => if i = j then
                some { left := l
                       right := r
                       node := (if coal then st.w else st.w + 1) - 1
                       population := pid
                       prev := none
                       next := none }
                else st.segs i }) := by
          unfold alloc_segment
          simp only [hfL]
        obtain ⟨stF, HF, hrunF, hC, ht, hw, hS, hA, hm, hn2, hpop, hsegsF⟩ :=
          merge_children_pass_spec r X { { st with
              S := Sc2
              w := if coal then st.w else st.w + 1 } with
              freeList := tl
              segs := fun i => if i = j then
                some { left := l
                       right := r
                       node := (if coal then st.w else st.w + 1) - 1
                       population := pid
                       prev := none
                       next := none }
                else st.segs i } H []
            (fun i hi => by
              have hine : i ≠ j := fun hij => hjX (hij ▸ hi)
              simp only [if_neg hine]
              exact hsegs i hi)
            (fun i hi s his yi hyi => by
              have hine : i ≠ j := fun hij => hjX (hij ▸ hi)
              simp only [if_neg hine] at his
              by_cases hyij : yi = j
              · simp only [if_pos hyij]
                rfl
              · simp only [if_neg hyij]
                exact hnext i hi s his yi hyi) hnd
        have hchEq : List.filterMap (fun i =>
            (if i = j then
                some { left := l
                       right := r
                       node := (if coal then st.w else st.w + 1) - 1
                       population := pid
                       prev := none
                       next := none }
              else st.segs i).map (fun s => s.node)) X = segNodes st X := by
          apply filterMap_congr_on
          intro i hi
          have hine : i ≠ j := fun hij => hjX (hij ▸ hi)
          simp only [if_neg hine]
        have hrunF2 : merge_children_pass r X ({ { st with
              S := Sc2
              w := if coal then st.w else st.w + 1 } with
              freeList := tl
              segs := fun i => if i = j then
                some { left := l
                       right := r
                       node := (if coal then st.w else st.w + 1) - 1
                       population := pid
                       prev := none
                       next := none }
                else st.segs i }, H, []) =
            some (stF, HF, List.filterMap (fun i =>
              (if i = j then
                  some { left := l
                         right := r
                         node := (if coal then st.w else st.w + 1) - 1
                         population := pid
                         prev := none
                         next := none }
                else st.segs i).map (fun s => s.node)) X) := hrunF
        rw [hchEq] at hrunF2
        have hrun : merge_batch_step st H X l r_max pid coal =
            some { st := { stF with C := stF.C ++
                     [(l, r, (if coal then st.w else st.w + 1) - 1, segNodes st X, stF.t)] },
                   H := HF, alpha := some j, coal := true } := by
          unfold merge_batch_step
          rw [if_neg hX1]
          simp only [hSaEq, hSbEq, hcEq, if_neg hcase, hwalk, halloc, hrunF2]
        refine ⟨Sa, Sb, c, _, r, hSaEq, hSbEq, hcEq, hrun, rfl, ?_, ?_, ?_, Or.inr
          ⟨hcase, ⟨j, rfl, ?_⟩, hrKeys, hlneq, hrle, hstop, hnov, ?_⟩⟩
        · exact hw
        · rw [ht]
        · rw [hC, ht]
        · show stF.segs j = _
          rw [hsegsF j hjX]
          simp
        · intro k
          show avlGet stF.S k = _
          rw [hS]
          exact hScGet k

theorem init_loop_spec (ts_m : ℚ) (samples : List Int) :
    ∀ (ks : List Nat) (st : SimpState),
    (ks.filter (fun (k : Nat) => decide ((k : Int) ∈ samples))).length ≤ st.freeList.length →
    ∃ st2, init_loop ts_m samples ks st = some st2 ∧
      (∀ k, (st2.A k).isSome ↔ ((k ∈ ks ∧ (k : Int) ∈ samples) ∨ (st.A k).isSome)) ∧
      st2.pop.length = st.pop.length +
        (ks.filter (fun (k : Nat) => decide ((k : Int) ∈ samples))).length ∧
      st2.freeList.length = st.freeList.length -
        (ks.filter (fun (k : Nat) => decide ((k : Int) ∈ samples))).length ∧
      st2.S = st.S ∧ st2.m = st.m ∧ st2.n = st.n ∧ st2.t = st.t ∧ st2.w = st.w ∧
      st2.C = st.C := by
  intro ks
  induction ks with
  | nil =>
    intro st _
    refine ⟨st, by rw [init_loop], ?_, by simp, by simp, rfl, rfl, rfl, rfl, rfl, rfl⟩
    intro k
    simp
  | cons k rest ih =>
    intro st hcap
    by_cases hk : (k : Int) ∈ samples
    · have hcount : ((k :: rest).filter (fun (k2 : Nat) => decide ((k2 : Int) ∈ samples))).length =
          (rest.filter (fun (k2 : Nat) => decide ((k2 : Int) ∈ samples))).length + 1 := by
        rw [List.filter_cons, if_pos (decide_eq_true hk)]
        simp
      rcases hfL : st.freeList with _ | ⟨j, tl⟩
      · rw [hfL] at hcap
        rw [hcount] at hcap
        simp at hcap
      · have halloc : alloc_segment st 0 ts_m k 0 none none = some (j,
            { st with
              freeList := tl
              segs := fun i => if i = j then
                some { left := 0
                       right := ts_m
                       node := k
                       population := 0
                       prev := none
                       next := none }
                else st.segs i }) := by
          unfold alloc_segment
          simp only [hfL]
        have hred : init_loop ts_m samples (k :: rest) st = init_loop ts_m samples rest
            { { st with
                freeList := tl
                segs := fun i => if i = j then
                  some { left := 0
                         right := ts_m
                         node := k
                         population := 0
                         prev := none
                         next := none }
                  else st.segs i } with
              L := fun i => if i = j then ts_m - 1 else st.L i
              pop := st.pop ++ [j]
              A := fun u => if u = k then some j else st.A u } := by
          rw [init_loop, if_pos hk, halloc]
        have hcap2 : (rest.filter (fun (k2 : Nat) => decide ((k2 : Int) ∈ samples))).length ≤
            tl.length := by
          rw [hfL] at hcap
          rw [hcount] at hcap
          simpa using hcap
        obtain ⟨st2, hrun, hAiff, hpop, hfree, hS, hm, hn, ht, hw, hC⟩ := ih
          { { st with
              freeList := tl
              segs := fun i => if i = j then
                some { left := 0
                       right := ts_m
                       node := k
                       population := 0
                       prev := none
                       next := none }
                else st.segs i } with
            L := fun i => if i = j then ts_m - 1 else st.L i
            pop := st.pop ++ [j]
            A := fun u => if u = k then some j else st.A u } hcap2
        refine ⟨st2, by rw [hred]; exact hrun, ?_, ?_, ?_, hS, hm, hn, ht, hw, hC⟩
        · intro k2
          rw [hAiff k2]
          constructor
          · intro hh
            rcases hh with ⟨hmem, hsm⟩ | hold
            · exact Or.inl ⟨List.mem_cons_of_mem k hmem, hsm⟩
            · by_cases hk2 : k2 = k
              · exact Or.inl ⟨by rw [hk2]; exact List.mem_cons_self k rest, by rw [hk2]; exact hk⟩
              · have hold2 : ((if k2 = k then some j else st.A k2 : Option Nat)).isSome :=
                  hold
                rw [if_neg hk2] at hold2
                exact Or.inr hold2
          · intro hh
            rcases hh with ⟨hmem, hsm⟩ | hold
            · rcases List.mem_cons.mp hmem with hk2 | hk2
              · right
                show ((if k2 = k then some j else st.A k2 : Option Nat)).isSome
                rw [if_pos hk2]
                rfl
              · exact Or.inl ⟨hk2, hsm⟩
            · right
              show ((if k2 = k then some j else st.A k2 : Option Nat)).isSome
              by_cases hk2 : k2 = k
              · rw [if_pos hk2]
                rfl
              · rw [if_neg hk2]
                exact hold
        · rw [hpop, hcount]
          simp only [List.length_append, List.length_cons, List.length_nil]
          omega
        · have hfree2 : st2.freeList.length = tl.length -
              (rest.filter (fun (k2 : Nat) => decide ((k2 : Int) ∈ samples))).length := hfree
          have hlen : st.freeList.length = tl.length + 1 := by
            rw [hfL]
            rfl
          show st2.freeList.length = (j :: tl).length -
              ((k :: rest).filter (fun (k2 : Nat) => decide ((k2 : Int) ∈ samples))).length
          simp only [List.length_cons]
          omega
    · have hcount : ((k :: rest).filter (fun (k2 : Nat) => decide ((k2 : Int) ∈ samples))).length =
          (rest.filter (fun (k2 : Nat) => decide ((k2 : Int) ∈ samples))).length := by
        rw [List.filter_cons, if_neg (by simpa using hk)]
      have hred : init_loop ts_m samples (k :: rest) st = init_loop ts_m samples rest st := by
        rw [init_loop, if_neg (show ¬ ((k : Int) ∈ samples) from hk)]
      obtain ⟨st2, hrun, hAiff, hpop, hfree, hS, hm, hn, ht, hw, hC⟩ :=
        ih st (by rw [hcount] at hcap; exact hcap)
      refine ⟨st2, by rw [hred]; exact hrun, ?_, by rw [hpop, hcount], by rw [hfree, hcount],
        hS, hm, hn, ht, hw, hC⟩
      intro k2
      rw [hAiff k2]
      constructor
      · intro hh
        rcases hh with ⟨hmem, hsm⟩ | hold
        · exact Or.inl ⟨List.mem_cons_of_mem k hmem, hsm⟩
        · exact Or.inr hold
      · intro hh
        rcases hh with ⟨hmem, hsm⟩ | hold
        · rcases List.mem_cons.mp hmem with hk2 | hk2
          · exact absurd (by rw [← hk2]; exact hsm) hk
          · exact Or.inl ⟨hk2, hsm⟩
        · exact Or.inr hold

/-- C10: the Simplifier constructor allocates an initial full-interval
segment, a container registration and an Ancestor Index Map entry only
for the members k of the kept-sample set with 0 <= k < the input sample
count; any other identifier in the kept-sample set is silently ignored
(no segment, no registration, no map entry, no error). -/
theorem C10_init_ignores_out_of_range (ts : TreeSeq) (samples : List Int)
    (max_segments : Nat)
    (hcap : ((List.range ts.sampleIds.length).filter
      (fun (k : Nat) => decide ((k : Int) ∈ samples))).length ≤ max_segments) :
    ∃ st, Simplifier.init ts samples max_segments = some st ∧
      (∀ k : Nat, (st.A k).isSome ↔ ((k : Int) ∈ samples ∧ k < ts.sampleIds.length)) ∧
      st.pop.length = ((List.range ts.sampleIds.length).filter
        (fun (k : Nat) => decide ((k : Int) ∈ samples))).length ∧
      st.freeList.length = max_segments - ((List.range ts.sampleIds.length).filter
        (fun (k : Nat) => decide ((k : Int) ∈ samples))).length := by
  have hfl0 : (((List.range max_segments).map (fun j => j + 1)) : List Nat).length =
      max_segments := by
    rw [List.length_map, List.length_range]
  obtain ⟨st1, hrun, hAiff, hpop, hfree, hS, hm, hn, ht, hw, hC⟩ :=
    init_loop_spec ts.sequence_length samples (List.range ts.sampleIds.length)
      { m := ts.sequence_length, n := ts.sampleIds.length,
        segs := fun _ => none,
        freeList := (List.range max_segments).map (fun j => j + 1),
        pop := [], S := [], A := fun _ => none, C := [],
        L := fun _ => 0, t := 0, w := 0 }
      (by rw [hfl0]; exact hcap)
  refine ⟨{ st1 with
      S := avlSet (avlSet st1.S 0 ((ts.sampleIds.length : Nat) : Int))
        ts.sequence_length (-1),
      t := 0, w := ts.sampleIds.length }, ?_, ?_, ?_, ?_⟩
  · unfold Simplifier.init
    simp only [hrun]
  · intro k
    show (st1.A k).isSome ↔ _
    rw [hAiff k]
    constructor
    · intro hh
      rcases hh with ⟨hmem, hsm⟩ | hold
      · exact ⟨hsm, List.mem_range.mp hmem⟩
      · simp at hold
    · intro ⟨hsm, hlt⟩
      exact Or.inl ⟨List.mem_range.mpr hlt, hsm⟩
  · show st1.pop.length = _
    rw [hpop]
    simp
  · show st1.freeList.length = _
    rw [hfree, hfl0]

/-- The result of the sampling prefix of the command-line driver: the
drawn sample subset, the pseudorandom source state after the run, and the
engine constructed over the drawn subset. -/
structure DrawResult (R : Type) where
  samples : List Int
  rng : R
  engine : Option SimpState

/-- Translation of the start of run_simplify: draw the random sample
subset from the full sample list using the current pseudorandom source
state, THEN reset the source from the given seed, and construct the
Simplifier over the drawn subset (max_segments keeping its default 100).
The pseudorandom source is the abstract state R with its sampling
function and its seeding function. -/
def run_simplify {R : Type} (sample : R → List Int → Nat → List Int × R)
    (seedFn : Int → R) (rng0 : R) (ts : TreeSeq) (sample_size : Nat)
    (random_seed : Int) : DrawResult R :=
  let drawn := sample rng0 ts.sampleIds sample_size
  let rng1 := seedFn random_seed
  { samples := drawn.1, rng := rng1, engine := Simplifier.init ts drawn.1 100 }


/-- An edgeset success of alloc_segment leaves the breakpoint counter map
and the next-fresh-node-id counter untouched. -/
theorem alloc_segment_S_w (st : SimpState) (l r : ℚ) (nd pid : Nat)
    (pr nx : Option Nat) (j : Nat) (st1 : SimpState)
    (h : alloc_segment st l r nd pid pr nx = some (j, st1)) :
    st1.S = st.S ∧ st1.w = st.w := by
  unfold alloc_segment at h
  rcases hfL : st.freeList with _ | ⟨j2, tl⟩
  · rw [hfL] at h
    simp at h
  · rw [hfL] at h
    simp only [Option.some.injEq, Prod.mk.injEq] at h
    obtain ⟨h1, h2⟩ := h
    constructor
    · rw [← h2]
    · rw [← h2]

/-- The constructor loop never touches the breakpoint counter map or the
next-fresh-node-id counter. -/
theorem init_loop_S_w (ts_m : ℚ) (samples : List Int) :
    ∀ (ks : List Nat) (st st2 : SimpState),
    init_loop ts_m samples ks st = some st2 → st2.S = st.S ∧ st2.w = st.w := by
  intro ks
  induction ks with
  | nil =>
    intro st st2 h
    rw [init_loop] at h
    simp only [Option.some.injEq] at h
    rw [← h]
    exact ⟨rfl, rfl⟩
  | cons k rest ih =>
    intro st st2 h
    rw [init_loop] at h
    by_cases hk : (k : Int) ∈ samples
    · rw [if_pos hk] at h
      rcases halloc : alloc_segment st 0 ts_m k 0 none none with _ | ⟨x, stA⟩
      · rw [halloc] at h
        simp at h
      · rw [halloc] at h
        have h2 : init_loop ts_m samples rest
            { stA with L := fun i => if i = x then ts_m - 1 else stA.L i,
                       pop := stA.pop ++ [x],
                       A := fun u => if u = k then some x else stA.A u } = some st2 := h
        obtain ⟨hS, hw⟩ := ih _ _ h2
        obtain ⟨hSa, hwa⟩ := alloc_segment_S_w st 0 ts_m k 0 none none x stA halloc
        constructor
        · rw [hS]
          exact hSa
        · rw [hw]
          exact hwa
    · rw [if_neg hk] at h
      exact ih _ _ h

/-- A successful run of the constructor yields the breakpoint counter map
built by the two seeding writes and the next-fresh-node-id counter set to
the full input sample count. -/
theorem Simplifier_init_S_w (ts : TreeSeq) (samples : List Int) (max_segments : Nat)
    (st : SimpState) (h : Simplifier.init ts samples max_segments = some st) :
    st.S = avlSet (avlSet [] 0 ((ts.sampleIds.length : Nat) : Int))
      ts.sequence_length (-1) ∧
    st.w = ts.sampleIds.length := by
  simp only [Simplifier.init] at h
  rcases hloop : init_loop ts.sequence_length samples (List.range ts.sampleIds.length)
      { m := ts.sequence_length, n := ts.sampleIds.length,
        segs := fun _ => none,
        freeList := (List.range max_segments).map (fun j => j + 1),
        pop := [], S := [], A := fun _ => none, C := [],
        L := fun _ => 0, t := 0, w := 0 } with _ | st1
  · rw [hloop] at h
    simp at h
  · rw [hloop] at h
    simp only [Option.some.injEq] at h
    obtain ⟨hS1, _⟩ := init_loop_S_w ts.sequence_length samples _ _ _ hloop
    have hS2 : st1.S = [] := hS1
    rw [← h]
    constructor
    · show avlSet (avlSet st1.S 0 ((ts.sampleIds.length : Nat) : Int))
        ts.sequence_length (-1) = _
      rw [hS2]
    · rfl

/-- The counterexample tree sequence for the constructor-counter claim:
two samples in the input, one sample kept. -/
def tsC1 : TreeSeq :=
  { sampleIds := [0, 1], sequence_length := 4, edgesets := [] }

/-- Counterexample to C1 as stated: keeping 1 of the 2 samples of tsC1
seeds S with {0: 2, 4: -1} and the fresh-id counter with 2 (the full
input sample count), not with the kept count 1. -/
theorem C1_init_counterexample :
    ((List.range tsC1.sampleIds.length).filter
      (fun (k : Nat) => decide ((k : Int) ∈ ([0] : List Int)))).length = 1 ∧
    (Simplifier.init tsC1 [0] 10).map (fun st => (st.S, st.w)) =
      some ([(0, 2), (4, -1)], 2) ∧
    ¬ ((Simplifier.init tsC1 [0] 10).map (fun st => (st.S, st.w)) =
      some ([(0, 1), (4, -1)], 1)) := by
  have hpos : (Simplifier.init tsC1 [0] 10).map (fun st => (st.S, st.w)) =
      some ([(0, 2), (4, -1)], 2) := rfl
  refine ⟨by decide, hpos, ?_⟩
  intro h
  rw [hpos] at h
  have h2 := congrArg (fun o => Option.map Prod.snd o) h
  simp at h2

/-- C1 (amended): the constructor seeds the Breakpoint Counter Map with
{0: n, sequence_length: -1} where n is the FULL sample count of the input
tree sequence (not the kept count) and sets the next-fresh-node-id
counter to n; each coalescing batch then increments the counter and
labels its coalescence record with the pre-increment value, so coalescent
ancestors receive ids n, n+1, ... in creation order. -/
theorem C1_init_counters_amended :
    (∀ (ts : TreeSeq) (samples : List Int) (max_segments : Nat) (st : SimpState),
        0 < ts.sequence_length →
        Simplifier.init ts samples max_segments = some st →
        st.S = [(0, ((ts.sampleIds.length : Nat) : Int)), (ts.sequence_length, -1)] ∧
        st.w = ts.sampleIds.length) ∧
    (∀ (st : SimpState) (H : List (ℚ × Nat)) (X : List Nat) (l r_max : ℚ) (pid : Nat),
        2 ≤ X.length → SSorted st.S → (∃ p ∈ st.S, p.1 ≤ l) → l < r_max →
        st.freeList ≠ [] → (∀ i ∈ X, (st.segs i).isSome) →
        (∀ i ∈ X, ∀ s, st.segs i = some s → ∀ yi, s.next = some yi →
          (st.segs yi).isSome) →
        X.Nodup → (∀ i ∈ X, i ∉ st.freeList) →
        ∃ out, merge_batch_step st H X l r_max pid false = some out ∧
          out.st.w = st.w + 1 ∧
          ∃ r, out.st.C = st.C ++ [(l, r, st.w, segNodes st X, st.t)]) := by
  constructor
  · intro ts samples max_segments st hm hinit
    obtain ⟨hS, hw⟩ := Simplifier_init_S_w ts samples max_segments st hinit
    refine ⟨?_, hw⟩
    rw [hS]
    show avlSet [(0, ((ts.sampleIds.length : Nat) : Int))] ts.sequence_length (-1) = _
    simp only [avlSet]
    rw [if_neg (not_lt.mpr (le_of_lt hm)), if_neg (ne_of_gt hm)]
  · intro st H X l r_max pid hlen hs hfl hlr hfree hsegs hnext hnd hdisj
    obtain ⟨Sa, Sb, c, out, r, _, _, _, hrun, _, hw, _, hC, _⟩ :=
      merge_batch_multi_spec st H X l r_max pid false hlen hs hfl hlr hfree hsegs
        hnext hnd hdisj
    refine ⟨out, hrun, ?_, r, ?_⟩
    · rw [hw]
      simp
    · rw [hC]
      simp

/-- The concrete multi-member batch state for the coalescence witnesses:
two full-interval segments over [0, 10) held by arena slots 1 and 2 with
input node labels 0 and 1, S = {0: 3, 10: -1}, two free slots, time 3 and
fresh-id counter 2. -/
def stMB : SimpState :=
  { m := 10, n := 2,
    segs := fun i =>
      if i = 1 then some { left := 0, right := 10, node := 0, population := 0,
                           prev := none, next := none }
      else if i = 2 then some { left := 0, right := 10, node := 1, population := 0,
                                prev := none, next := none }
      else none,
    freeList := [5, 6],
    pop := [1, 2], S := [(0, 3), (10, -1)],
    A := fun u => if u = 0 then some 1 else if u = 1 then some 2 else none,
    C := [], L := fun _ => 0, t := 3, w := 2 }

/-- Chain successors of the batch members of stMB are live (vacuous: both
segments end their chains). -/
theorem stMB_nextSome : ∀ i ∈ ([1, 2] : List Nat), ∀ s, stMB.segs i = some s →
    ∀ yi, s.next = some yi → (stMB.segs yi).isSome := by
  intro i hi s hs2 yi hyi
  fin_cases hi
  · have h4 : (some none : Option (Option Nat)) = some s.next :=
      congrArg (Option.map (fun (s0 : Seg) => s0.next)) hs2
    injection h4 with h5
    rw [← h5] at hyi
    simp at hyi
  · have h4 : (some none : Option (Option Nat)) = some s.next :=
      congrArg (Option.map (fun (s0 : Seg) => s0.next)) hs2
    injection h4 with h5
    rw [← h5] at hyi
    simp at hyi

/-- Witness for C1: the constructor counters at tsC1, and a concrete
coalescing batch over stMB whose record carries the pre-increment fresh
id stMB.w = 2 while the counter moves to 3. -/
theorem C1_witness :
    (0 : ℚ) < tsC1.sequence_length ∧
    (Simplifier.init tsC1 [0] 10).map (fun st => (st.S, st.w)) =
      some ([(0, ((tsC1.sampleIds.length : Nat) : Int)), (tsC1.sequence_length, -1)],
        tsC1.sampleIds.length) ∧
    (merge_batch_step stMB [] [1, 2] 0 10 0 false).map
      (fun b => (b.st.w, b.st.C.map (fun rec => rec.2.2.1))) =
      some (stMB.w + 1, [stMB.w]) := by
  refine ⟨by decide, ?_, ?_⟩
  · rcases hinit : Simplifier.init tsC1 [0] 10 with _ | st
    · have hS : (Simplifier.init tsC1 [0] 10).isSome = true := by decide
      rw [hinit] at hS
      simp at hS
    · obtain ⟨h1, h2⟩ := C1_init_counters_amended.1 tsC1 [0] 10 st (by decide) hinit
      rw [Option.map_some', h1, h2]
  · obtain ⟨out, hrun, hw, r, hC⟩ := C1_init_counters_amended.2 stMB [] [1, 2] 0 10 0
      (by decide) (by unfold SSorted; decide) (by decide) (by norm_num) (by decide)
      (by decide) stMB_nextSome (by decide) (by decide)
    rw [hrun, Option.map_some', hw, hC]
    rfl

/-- C2 (amended): for a multi-member batch X at minimum left coordinate l
with bound r_max, after the counter map receives explicit entries at l
and r_max: if the count at l EQUALS the batch size the interval collapses
(count at l zeroed, r the successor key, and NO alpha segment is
allocated); otherwise the walk decrements every key count on [l, r) by
|X| - 1, stopping at the first key whose count IS |X| or at r_max, and
only then a fresh segment alpha spanning [l, r) with the coalescence node
id is allocated. -/
theorem C2_merge_multi_batch (st : SimpState) (H : List (ℚ × Nat)) (X : List Nat)
    (l r_max : ℚ) (pid : Nat) (coal : Bool)
    (hlen : 2 ≤ X.length)
    (hs : SSorted st.S)
    (hfl : ∃ p ∈ st.S, p.1 ≤ l)
    (hlr : l < r_max)
    (hfree : st.freeList ≠ [])
    (hsegs : ∀ i ∈ X, (st.segs i).isSome)
    (hnext : ∀ i ∈ X, ∀ s, st.segs i = some s → ∀ yi, s.next = some yi →
      (st.segs yi).isSome)
    (hnd : X.Nodup)
    (hdisj : ∀ i ∈ X, i ∉ st.freeList) :
    ∃ Sa Sb c out r,
      ensure_key st.S l = some Sa ∧
      ensure_key Sa r_max = some Sb ∧
      avlGet Sb l = some c ∧
      merge_batch_step st H X l r_max pid coal = some out ∧
      out.coal = true ∧
      out.st.w = (if coal then st.w else st.w + 1) ∧
      out.st.t = st.t ∧
      out.st.C = st.C ++ [(l, r, (if coal then st.w else st.w + 1) - 1,
        segNodes st X, st.t)] ∧
      ((c = (X.length : Int) ∧ out.alpha = none ∧ avlSuccKey Sb l = some r ∧
          out.st.S = avlSet Sb l 0) ∨
       (c ≠ (X.length : Int) ∧
          (∃ a, out.alpha = some a ∧
            out.st.segs a = some { left := l
                                   right := r
                                   node := (if coal then st.w else st.w + 1) - 1
                                   population := pid
                                   prev := none
                                   next := none }) ∧
          r ∈ keys Sb ∧ l < r ∧ r ≤ r_max ∧
          (r = r_max ∨ avlGet Sb r = some (X.length : Int)) ∧
          (∀ k v, (k, v) ∈ Sb → l ≤ k → k < r → v ≠ (X.length : Int)) ∧
          (∀ k, avlGet out.st.S k =
            (avlGet Sb k).map (fun v =>
              if l ≤ k ∧ k < r then v - ((X.length : Int) - 1) else v)))) :=
  merge_batch_multi_spec st H X l r_max pid coal hlen hs hfl hlr hfree hsegs
    hnext hnd hdisj

/-- The counterexample batch state for C2: like stMB but with the count
at 0 equal to the batch size (S = {0: 2, 10: -1}). -/
def stC2 : SimpState :=
  { m := 10, n := 2,
    segs := fun i =>
      if i = 1 then some { left := 0, right := 10, node := 0, population := 0,
                           prev := none, next := none }
      else if i = 2 then some { left := 0, right := 10, node := 1, population := 0,
                                prev := none, next := none }
      else none,
    freeList := [5, 6],
    pop := [1, 2], S := [(0, 2), (10, -1)],
    A := fun u => if u = 0 then some 1 else if u = 1 then some 2 else none,
    C := [], L := fun _ => 0, t := 3, w := 2 }

/-- Counterexample to C2 as stated: when the count at l equals the batch
size the collapse branch allocates NO alpha segment at all (the claim
says a new segment alpha is allocated in either case), even though the
coalescence record is still emitted. -/
theorem C2_counterexample :
    (merge_batch_step stC2 [] [1, 2] 0 10 0 false).map
      (fun b => (b.alpha.isSome, b.coal, b.st.C.length)) =
      some (false, true, 1) := by
  decide

/-- Witness for C2: the walk branch at stMB (count 3 at key 0, batch size
2) with every hypothesis discharged concretely. -/
theorem C2_witness :
    2 ≤ ([1, 2] : List Nat).length ∧
    (∃ Sa Sb c out r,
      ensure_key stMB.S 0 = some Sa ∧
      ensure_key Sa 10 = some Sb ∧
      avlGet Sb 0 = some c ∧
      merge_batch_step stMB [] [1, 2] 0 10 0 false = some out ∧
      out.coal = true ∧
      out.st.w = (if false then stMB.w else stMB.w + 1) ∧
      out.st.t = stMB.t ∧
      out.st.C = stMB.C ++ [(0, r, (if false then stMB.w else stMB.w + 1) - 1,
        segNodes stMB [1, 2], stMB.t)] ∧
      ((c = (([1, 2] : List Nat).length : Int) ∧ out.alpha = none ∧
          avlSuccKey Sb 0 = some r ∧ out.st.S = avlSet Sb 0 0) ∨
       (c ≠ (([1, 2] : List Nat).length : Int) ∧
          (∃ a, out.alpha = some a ∧
            out.st.segs a = some { left := 0
                                   right := r
                                   node := (if false then stMB.w else stMB.w + 1) - 1
                                   population := 0
                                   prev := none
                                   next := none }) ∧
          r ∈ keys Sb ∧ (0 : ℚ) < r ∧ r ≤ 10 ∧
          (r = (10 : ℚ) ∨ avlGet Sb r = some (([1, 2] : List Nat).length : Int)) ∧
          (∀ k v, (k, v) ∈ Sb → 0 ≤ k → k < r →
            v ≠ (([1, 2] : List Nat).length : Int)) ∧
          (∀ k, avlGet out.st.S k =
            (avlGet Sb k).map (fun v =>
              if 0 ≤ k ∧ k < r then v - ((([1, 2] : List Nat).length : Int) - 1)
              else v))))) :=
  ⟨by decide,
    C2_merge_multi_batch stMB [] [1, 2] 0 10 0 false (by decide)
      (by unfold SSorted; decide) (by decide) (by norm_num) (by decide)
      (by decide) stMB_nextSome (by decide) (by decide)⟩

/-- The state exhibiting the chain break of remove_ancestry: one ancestor
chain for node id 3 with two segments, slot 1 = [0, 10) label 0 linking
to slot 2 = [10, 50) label 1. -/
def stC3 : SimpState :=
  { m := 50, n := 2,
    segs := fun i =>
      if i = 1 then some { left := 0, right := 10, node := 0, population := 0,
                           prev := none, next := some 2 }
      else if i = 2 then some { left := 10, right := 50, node := 1, population := 0,
                                prev := some 1, next := none }
      else none,
    freeList := [3, 4, 5],
    pop := [1], S := [(0, 2), (50, -1)],
    A := fun u => if u = 3 then some 1 else none,
    C := [], L := fun _ => 0, t := 7, w := 2 }

/-- The edgeset whose removal run [5, 50) starts strictly inside the
first segment of the chain of stC3. -/
def edgeC3 : EdgeSet := { left := 5, right := 50, parent := 5, children := [3] }

/-- C3 (code bug): removing the run [5, 50) from the two-segment chain of
stC3 pushes exactly one heap entry, headed by the freshly allocated slot
3 = [5, 10); but because the left-overhang allocation creates that head
with a nil successor and never relinks it, the second removed segment
slot 2 = [10, 50) ends up with prev = 3 while the head keeps next = none,
so the returned chain contains only [5, 10) and the rest of the removed
ancestry is unreachable from the returned heap entry, contradicting the
routine's contract of returning the removed subset. -/
theorem C3_remove_ancestry_chain_break :
    (remove_ancestry edgeC3 10 stC3).map (fun p => p.2) = some [(5, 3)] ∧
    (remove_ancestry edgeC3 10 stC3).map
      (fun p => (p.1.segs 3).map (fun s => (s.left, s.right, s.next))) =
      some (some (5, 10, none)) ∧
    (remove_ancestry edgeC3 10 stC3).map (fun p => p.1.segs 2) =
      some (some { left := 10, right := 50, node := 1, population := 0,
                   prev := some 3, next := none }) ∧
    (remove_ancestry edgeC3 10 stC3).map (fun p => p.1.A 3) = some (some 1) := by
  refine ⟨by decide, by decide, by decide, by decide⟩

/-- C4: in run_simplify the sample subset is drawn from the current
pseudorandom source state BEFORE the seed is applied, so two runs from
the same initial source state with different seeds draw the identical
subset and construct the same engine: the seed has no influence on the
draw. -/
theorem C4_seed_has_no_influence_on_draw {R : Type}
    (sample : R → List Int → Nat → List Int × R) (seedFn : Int → R) (rng0 : R)
    (ts : TreeSeq) (sample_size : Nat) (seed1 seed2 : Int) :
    (run_simplify sample seedFn rng0 ts sample_size seed1).samples =
      (run_simplify sample seedFn rng0 ts sample_size seed2).samples ∧
    (run_simplify sample seedFn rng0 ts sample_size seed1).engine =
      (run_simplify sample seedFn rng0 ts sample_size seed2).engine :=
  ⟨rfl, rfl⟩

/-- The witness tree sequence for C10: three samples, out-of-range and
negative ids in the kept set. -/
def tsW10 : TreeSeq :=
  { sampleIds := [10, 11, 12], sequence_length := 4, edgesets := [] }

/-- Witness for C10: keeping {1, 5, -2} over a 3-sample tree sequence
registers ancestry only for id 1; ids 5 and -2 are ignored without
error and one arena slot is consumed. -/
theorem C10_witness :
    ((List.range tsW10.sampleIds.length).filter
      (fun (k : Nat) => decide ((k : Int) ∈ ([1, 5, -2] : List Int)))).length ≤ 10 ∧
    (Simplifier.init tsW10 [1, 5, -2] 10).map
      (fun st => ((st.A 1).isSome, (st.A 5).isSome, (st.A 0).isSome,
        st.pop.length, st.freeList.length)) = some (true, false, false, 1, 9) := by
  refine ⟨by decide, ?_⟩
  obtain ⟨st, hinit, hA, hpop, hfree⟩ :=
    C10_init_ignores_out_of_range tsW10 [1, 5, -2] 10 (by decide)
  rw [hinit, Option.map_some']
  have h1 : (st.A 1).isSome = true := (hA 1).mpr (by decide)
  have h5 : (st.A 5).isSome = false := by
    cases hB : (st.A 5).isSome
    · rfl
    · exact absurd ((hA 5).mp hB) (by decide)
  have h0 : (st.A 0).isSome = false := by
    cases hB : (st.A 0).isSome
    · rfl
    · exact absurd ((hA 0).mp hB) (by decide)
  rw [h1, h5, h0, hpop, hfree]
  rfl

end SimplifyAlgs
